import Mathlib

/-
Verification of the alexandria3k main module (src/alexandria3k/alexandria3k.py)
against its natural-language specification.

The development shallowly embeds the parts of the program the claims are
about: the column-dictionary bookkeeping (add_column, set_query_columns),
the join-closure planner (set_join_columns), the streaming and partitioned
query executor (CrossrefMetaData.query), the population planner and executor
(populate_database), the normalizer (normalize_affiliations), and the
command-line argument checks in main.

The crossref schema catalog and the tsort helper are repository modules that
are not part of the sources available here; definitions for them are
modelled from the specification and are marked as such in their doc
comments.  The apsw database-engine callbacks (authorizer, execution
tracer) are modelled from the specification's description of their
contract.
-/

/-- Value is an SQL cell value: integer, text or NULL. -/
inductive Value where
  | vInt (i : Int)
  | vStr (s : String)
  | vNull
  deriving DecidableEq, Repr

/-- Row is one record of a virtual table: the synthesized rowid, the
container the record came from, and the logical columns as name-value
pairs. -/
structure Row where
  rowid : Int
  containerId : Nat
  cols : List (String × Value)
  deriving DecidableEq, Repr

/-- Dict models the Python dictionaries mapping a table name to the set of
column names required for it (self.query_columns, self.population_columns).
The set is kept as an insertion-ordered duplicate-free list. -/
abbrev Dict := List (String × List String)

/-- setInsert models Python set.add on the insertion-ordered list model. -/
def setInsert (s : List String) (c : String) : List String :=
  if c ∈ s then s else s ++ [c]

/-- addColumn embeds CrossrefMetaData.add_column: if the table is already a
key of the dictionary the column is added to its set, otherwise a fresh
singleton set is bound. -/
def addColumn : Dict → String → String → Dict
  | [], t, c => [(t, [c])]
  | (k, s) :: d, t, c =>
      if k = t then (k, setInsert s c) :: d else (k, s) :: addColumn d t c

/-- addCols folds addColumn over a list of (table, column) pairs, in order;
this is how a sequence of authorizer callbacks updates a dictionary. -/
def addCols (d : Dict) (ps : List (String × String)) : Dict :=
  ps.foldl (fun acc p => addColumn acc p.1 p.2) d

/-- hasColB decides whether the dictionary maps table t to a set
containing column c. -/
def hasColB (d : Dict) (t c : String) : Bool :=
  match d.lookup t with
  | some s => s.contains c
  | none => false

/-- dictKeys lists the keys of a dictionary in order. -/
def dictKeys (d : Dict) : List String := d.map (·.1)

/-- TableMeta describes one logical table of the schema catalog.  Following
the source's usage in set_join_columns and joined_tables, primaryKey is the
column of the PARENT table that this table's foreignKey references (the
join emitted is parent.primaryKey = child.foreignKey). -/
structure TableMeta where
  name : String
  parentName : Option String
  primaryKey : Option String
  foreignKey : Option String
  columns : List String
  deriving DecidableEq, Repr

/-- Modelled from the spec: the crossref schema catalog (the crossref
module is not among the available sources).  The spec names the root table
works and the child tables work_authors, work_references, work_subjects,
work_funders, author_affiliations and funder_awards; the S3 scenario fixes
works.doi as the key referenced by work_authors.work_doi, and the
normalizer fixes work_authors.id as the key referenced by
author_affiliations.author_id. -/
def crossrefTables : List TableMeta :=
  [ { name := "works", parentName := none, primaryKey := none,
      foreignKey := none, columns := ["doi", "title", "published_year"] },
    { name := "work_authors", parentName := some "works",
      primaryKey := some "doi", foreignKey := some "work_doi",
      columns := ["id", "work_doi", "orcid", "given", "family"] },
    { name := "author_affiliations", parentName := some "work_authors",
      primaryKey := some "id", foreignKey := some "author_id",
      columns := ["author_id", "name"] },
    { name := "work_references", parentName := some "works",
      primaryKey := some "doi", foreignKey := some "work_doi",
      columns := ["work_doi", "doi", "year"] },
    { name := "work_subjects", parentName := some "works",
      primaryKey := some "doi", foreignKey := some "work_doi",
      columns := ["work_doi", "name"] },
    { name := "work_funders", parentName := some "works",
      primaryKey := some "doi", foreignKey := some "work_doi",
      columns := ["id", "work_doi", "doi", "name"] },
    { name := "funder_awards", parentName := some "work_funders",
      primaryKey := some "id", foreignKey := some "funder_id",
      columns := ["funder_id", "name"] } ]

/-- getTableMetaByName embeds crossref.get_table_meta_by_name as a lookup
in the modelled catalog. -/
def getTableMetaByName (t : String) : Option TableMeta :=
  crossrefTables.find? (fun m => m.name == t)

/-- catalogFuel bounds parent-chain walks; the concrete catalog has chains
of length at most three, so the number of catalog tables is enough for
every walk to reach the root. -/
def catalogFuel : Nat := crossrefTables.length

/-- Corpus models the data source: the virtual tables' rows (already
tagged with the container each record came from) and the container
identifiers yielded by get_file_id_iterator. -/
structure Corpus where
  tables : List (String × List Row)
  fileIds : List Nat
  deriving Repr

/-- getVTable returns the full contents of one virtual table, in
(container, natural record order) sequence. -/
def getVTable (corpus : Corpus) (t : String) : List Row :=
  (corpus.tables.lookup t).getD []

/-- rowLookup reads one column of a virtual-table row; container_id and
rowid are the two implicit columns every virtual table exposes, and a
column the module does not materialize yields the NULL placeholder. -/
def rowLookup (r : Row) (c : String) : Value :=
  if c = "container_id" then Value.vInt (Int.ofNat r.containerId)
  else if c = "rowid" then Value.vInt r.rowid
  else (r.cols.lookup c).getD Value.vNull

/-- SliceRow is a row of a materialized (real, non-virtual) table: just
name-value pairs for the columns the CREATE TABLE AS SELECT kept. -/
abbrev SliceRow := List (String × Value)

/-- sliceLook reads one column of a materialized row. -/
def sliceLook (sr : SliceRow) (c : String) : Value :=
  (sr.lookup c).getD Value.vNull

/-- mkSliceRow materializes the listed columns of a virtual row, as the
partitioned executor's CREATE TABLE name AS SELECT columns does. -/
def mkSliceRow (cs : List String) (r : Row) : SliceRow :=
  cs.map (fun c => (c, rowLookup r c))

/-- sliceOf is the materialized per-container slice of one virtual table:
the rows with the given container_id, projected to the listed columns,
order preserved. -/
def sliceOf (corpus : Corpus) (cs : List String) (t : String) (i : Nat) :
    List SliceRow :=
  ((getVTable corpus t).filter (fun r => r.containerId == i)).map (mkSliceRow cs)

/-- Query is the modelled SQL fragment: a single-table select-project
query (predicate over the values of its predicate columns, projection
over the values of its projection columns), a bare SELECT count(*), or a
two-table inner join whose ON/WHERE predicate reads the listed columns
of each side and whose projection reads the listed columns of each
side. -/
inductive Query where
  | select (table : String) (predCols : List String)
      (pred : List Value → Bool)
      (projCols : List String) (proj : List Value → List Value)
  | countAll (table : String)
  | join (table1 table2 : String) (predCols1 predCols2 : List String)
      (pred : List Value → List Value → Bool)
      (projCols1 projCols2 : List String)
      (proj : List Value → List Value → List Value)

/-- queryRefs lists the (table, column) pairs the engine's authorizer
reports for a query: every predicate and projection column of every
scanned table.  A bare count(*) reads the whole row and reports no
column (the authorizer's empty-column callbacks are skipped by the
source's column test). -/
def queryRefs : Query → List (String × String)
  | .select t pc _ jc _ => (pc ++ jc).map (fun c => (t, c))
  | .countAll _ => []
  | .join t1 t2 pc1 pc2 _ jc1 jc2 _ =>
      (pc1 ++ jc1).map (fun c => (t1, c)) ++ (pc2 ++ jc2).map (fun c => (t2, c))

/-- evalQuery evaluates a query against an environment resolving each
table name to its rows, a row being read through its cell function.  A
join is the nested-loop inner join of its two tables, first table
outermost. -/
def evalQuery (env : String → List (String → Value)) :
    Query → List (List Value)
  | .select t pc pred jc proj =>
      ((env t).filter (fun f => pred (pc.map f))).map
        (fun f => proj (jc.map f))
  | .countAll t => [[Value.vInt (Int.ofNat (env t).length)]]
  | .join t1 t2 pc1 pc2 pred jc1 jc2 proj =>
      (env t1).flatMap (fun f1 =>
        ((env t2).filter (fun f2 => pred (pc1.map f1) (pc2.map f2))).map
          (fun f2 => proj (jc1.map f1) (jc2.map f2)))

/-- virtualEnv resolves every table name to the virtual table's rows. -/
def virtualEnv (corpus : Corpus) : String → List (String → Value) :=
  fun t => (getVTable corpus t).map (fun r => rowLookup r)

/-- streamQuery is the streaming (non-partitioned) execution path of
CrossrefMetaData.query: the query runs directly against the virtual
tables. -/
def streamQuery (corpus : Corpus) (q : Query) : List (List Value) :=
  evalQuery (virtualEnv corpus) q

/-- EngineError classifies the outcomes of an aborted engine call: the
distinguished abort raised when an execution tracer denies the operation
(apsw.ExecTraceAbort), or an ordinary SQL error. -/
inductive EngineError where
  | execTraceAbort
  | sqlError (msg : String)
  deriving DecidableEq, Repr

/-- Modelled from the spec: executing a statement on the analysis
connection with the authorizer and the denying execution tracer installed.
The authorizer observes every column reference at preparation and records
it through add_column; the tracer then denies the operation, so the engine
terminates with the aborted-by-trace signal before any row is produced and
before any effect on data.  The function returns the recorded dictionary,
the unchanged data, and the signal. -/
def executeWithTraceAbort (qc : Dict) (data : Corpus) (q : Query) :
    Dict × Corpus × EngineError :=
  (addCols qc (queryRefs q), data, EngineError.execTraceAbort)

/-- setQueryColumnsModel embeds CrossrefMetaData.set_query_columns: run
the query under the two hooks, catch and swallow the expected
ExecTraceAbort, and let any other engine error escape (the Bool records
whether an error escaped). -/
def setQueryColumnsModel (qc : Dict) (data : Corpus) (q : Query) :
    Dict × Corpus × Bool :=
  match executeWithTraceAbort qc data q with
  | (qc', data', EngineError.execTraceAbort) => (qc', data', false)
  | (qc', data', EngineError.sqlError _) => (qc', data', true)

/-- analyzeInto is the net effect of set_query_columns on the session's
query_columns dictionary. -/
def analyzeInto (qc : Dict) (q : Query) : Dict :=
  addCols qc (queryRefs q)

/-- slicesDict builds, for container i, the real table created for every
key of the query_columns dictionary, with that key's recorded columns. -/
def slicesDict (corpus : Corpus) (qc : Dict) (i : Nat) :
    List (String × List SliceRow) :=
  qc.map (fun p => (p.1, sliceOf corpus p.2 p.1 i))

/-- resolveTable resolves one table name on the partition connection: a
created real table when one exists, falling through to the attached
virtual database otherwise. -/
def resolveTable (created : List (String × List SliceRow)) (corpus : Corpus)
    (t : String) : List (String → Value) :=
  match created.lookup t with
  | some srs => srs.map (fun sr => sliceLook sr)
  | none => (getVTable corpus t).map (fun r => rowLookup r)

/-- resolveRun runs a query on the partition connection, resolving every
scanned table through resolveTable. -/
def resolveRun (created : List (String × List SliceRow)) (corpus : Corpus)
    (q : Query) : List (List Value) :=
  evalQuery (resolveTable created corpus) q

/-- dropTable removes the named table from the connection state. -/
def dropTable {β : Type} : List (String × β) → String → List (String × β)
  | [], _ => []
  | (k, v) :: rest, t => if k = t then rest else (k, v) :: dropTable rest t

/-- dropAll drops the named tables in order. -/
def dropAll {β : Type} (st : List (String × β)) (ts : List String) :
    List (String × β) :=
  ts.foldl dropTable st

/-- partitionStep is one iteration of the partitioned executor for
container i: create a real table for every query_columns key, run the
query, collect its rows, then drop the created tables. -/
def partitionStep (corpus : Corpus) (qc : Dict) (q : Query)
    (st : List (String × List SliceRow)) (i : Nat) :
    List (List Value) × List (String × List SliceRow) :=
  let created := st ++ slicesDict corpus qc i
  let rows := resolveRun created corpus q
  (rows, dropAll created (dictKeys qc))

/-- partitionLoop iterates partitionStep over the container identifiers,
concatenating the yielded rows and threading the connection state. -/
def partitionLoop (corpus : Corpus) (qc : Dict) (q : Query) :
    List Nat → List (String × List SliceRow) →
    List (List Value) × List (String × List SliceRow)
  | [], st => ([], st)
  | i :: rest, st =>
      let step := partitionStep corpus qc q st i
      let next := partitionLoop corpus qc q rest step.2
      (step.1 ++ next.1, next.2)

/-- queryModel embeds CrossrefMetaData.query.  Without partitioning the
query runs directly on the virtual tables and query_columns is untouched;
with partitioning set_query_columns first accumulates the query's columns
into the session dictionary and the query then runs once per container
over freshly created real tables.  The result is the yielded rows together
with the session's query_columns afterwards. -/
def queryModel (corpus : Corpus) (qc : Dict) (q : Query)
    (partitionFlag : Bool) : List (List Value) × Dict :=
  if partitionFlag then
    let qc1 := analyzeInto qc q
    ((partitionLoop corpus qc1 q corpus.fileIds []).1, qc1)
  else
    (streamQuery corpus q, qc)

/-- containerResult is the result set the partitioned executor produces
for one container: the query run on the connection holding exactly that
container's materialized slices. -/
def containerResult (corpus : Corpus) (qc : Dict) (q : Query) (i : Nat) :
    List (List Value) :=
  resolveRun (slicesDict corpus qc i) corpus q

/-- toAddFrom embeds the while loop of set_join_columns walking up the
parent chain from one table: at each level it collects the table's
foreign key for the table itself and the referenced parent key for the
parent, then moves to the parent.  The fuel bounds the walk; with fuel at
least the catalog size every concrete chain reaches the root. -/
def toAddFrom : Nat → String → List (String × String)
  | 0, _ => []
  | n + 1, tn =>
      match getTableMetaByName tn with
      | none => []
      | some t =>
          (match t.foreignKey with
           | some fk => [(tn, fk)]
           | none => []) ++
          (match t.parentName, t.primaryKey with
           | some p, some pk => [(p, pk)]
           | _, _ => []) ++
          (match t.parentName with
           | some p => toAddFrom n p
           | none => [])

/-- unionTables embeds population_and_query_tables: the set union of the
keys of the two dictionaries, as an insertion-ordered duplicate-free
list. -/
def unionTables (pop qc : Dict) : List String :=
  (dictKeys pop ++ dictKeys qc).dedup

/-- setJoinColumns embeds set_join_columns: collect the chain pairs of
every table needed for populating or querying, then fold them into
query_columns through add_column. -/
def setJoinColumns (pop qc : Dict) : Dict :=
  addCols qc ((unionTables pop qc).flatMap (toAddFrom catalogFuel))

/-- buildPop embeds the loop that folds the parsed table.column
specifications into population_columns. -/
def buildPop (pop : Dict) (parsedCols : List (String × String)) : Dict :=
  addCols pop parsedCols

/-- planQueryColumns is the planning part of populate_database acting on
the session's query_columns: with a condition, the synthetic probing
query's columns (as reported by the authorizer) are accumulated and the
join closure is added; without one, query_columns is left untouched. -/
def planQueryColumns (pop qc : Dict) (condRefs : Option (List (String × String))) :
    Dict :=
  match condRefs with
  | some refs => setJoinColumns pop (addCols qc refs)
  | none => qc

/-- chainCoveredB states, as a decidable check, that the dictionary
contains every join column along the parent chain starting at the given
table: the table's own foreign key under the table, and the referenced
parent key under the parent, recursively up to the root. -/
def chainCoveredB (qc : Dict) : Nat → String → Bool
  | 0, _ => true
  | n + 1, tn =>
      match getTableMetaByName tn with
      | none => true
      | some t =>
          (match t.foreignKey with
           | some fk => hasColB qc tn fk
           | none => true) &&
          (match t.parentName, t.primaryKey with
           | some p, some pk => hasColB qc p pk
           | _, _ => true) &&
          (match t.parentName with
           | some p => chainCoveredB qc n p
           | none => true)

/-- sqlEq is SQL join equality collapsed to a Bool: a comparison with
NULL never matches. -/
def sqlEq : Value → Value → Bool
  | Value.vNull, _ => false
  | _, Value.vNull => false
  | a, b => a == b

/-- Modelled from the spec: the tsort module (not among the available
sources) orders a set of table names so that every parent precedes its
children, breaking sibling ties lexicographically; names outside the
catalog are not ordered. -/
def canonicalTableOrder : List String :=
  ["works", "work_authors", "work_funders", "work_references",
   "work_subjects", "author_affiliations", "funder_awards"]

/-- tsortModel filters the canonical parent-first order down to the
requested set of tables. -/
def tsortModel (ts : List String) : List String :=
  canonicalTableOrder.filter (fun t => t ∈ ts)

/-- TempState is the session connection's set of temporary tables, each a
list of materialized rows. -/
abbrev TempState := List (String × List SliceRow)

/-- setTable drops the named table if it exists and then creates it anew
with the given contents (DROP TABLE IF EXISTS followed by CREATE). -/
def setTable {β : Type} (st : List (String × β)) (k : String) (v : β) :
    List (String × β) :=
  dropTable st k ++ [(k, v)]

/-- Env is one row of the left-joined traversal used for temp_combined:
for every table on the join path, its matched slice row or NULL. -/
abbrev Env := List (String × Option SliceRow)

/-- envLook reads table.column out of a joined row; an unmatched (NULL)
table contributes NULL. -/
def envLook (env : Env) (t c : String) : Value :=
  match env.lookup t with
  | some (some sr) => sliceLook sr c
  | _ => Value.vNull

/-- leftJoinStep appends one table to the join: every joined row is
extended with each matching child row, or with NULL when no child
matches. -/
def leftJoinStep (envs : List Env) (tname parentName pk fk : String)
    (childRows : List SliceRow) : List Env :=
  envs.flatMap (fun env =>
    let ms := childRows.filter
      (fun cr => sqlEq (envLook env parentName pk) (sliceLook cr fk))
    if ms.isEmpty then [env ++ [(tname, none)]]
    else ms.map (fun cr => env ++ [(tname, some cr)]))

/-- Cond models the population condition: the column references the
authorizer reports for the synthetic probing query, and the condition's
value on a joined row. -/
structure Cond where
  refs : List (String × String)
  eval : (String → String → Value) → Bool

/-- buildCombined embeds the temp_combined creation: starting from the
temp_works slice, LEFT JOIN every other involved table in topological
order on parent.primaryKey = child.foreignKey, keep the joined rows
satisfying the condition, and record each involved table's rowid. -/
def buildCombined (temps : TempState) (union : List String) (cond : Cond) :
    List SliceRow :=
  let base : List Env :=
    ((temps.lookup "temp_works").getD []).map (fun sr => [("works", some sr)])
  let joined := ((tsortModel union).filter (fun t => t ≠ "works")).foldl
    (fun envs t =>
      match getTableMetaByName t with
      | some m =>
          match m.parentName, m.primaryKey, m.foreignKey with
          | some p, some pk, some fk =>
              leftJoinStep envs t p pk fk
                ((temps.lookup ("temp_" ++ t)).getD [])
          | _, _, _ => envs
      | none => envs) base
  (joined.filter (fun env => cond.eval (envLook env))).map
    (fun env => union.map (fun t => (t ++ "_rowid", envLook env t "rowid")))

/-- populateSliceCols is the column list for one temp slice: the
query_columns entry united with rowid, or rowid alone. -/
def populateSliceCols (qc : Dict) (t : String) : List String :=
  match qc.lookup t with
  | some s => setInsert s "rowid"
  | none => ["rowid"]

/-- writeTemps drops and recreates the temp slice of every involved table
for container i. -/
def writeTemps (corpus : Corpus) (union : List String) (qc : Dict)
    (temps : TempState) (i : Nat) : TempState :=
  union.foldl
    (fun ts t =>
      setTable ts ("temp_" ++ t) (sliceOf corpus (populateSliceCols qc t) t i))
    temps

/-- writeCombined drops and recreates temp_combined from the current temp
slices. -/
def writeCombined (union : List String) (cond : Cond) (ts : TempState) :
    TempState :=
  setTable ts "temp_combined" (buildCombined ts union cond)

/-- containerTemps is the whole temporary-table state the population loop
leaves behind after processing container i, starting from a given state. -/
def containerTemps (corpus : Corpus) (pop qc : Dict) (cond : Cond)
    (temps : TempState) (i : Nat) : TempState :=
  writeCombined (unionTables pop qc) cond
    (writeTemps corpus (unionTables pop qc) qc temps i)

/-- expandStar expands a star specification to the catalog's full column
list for the table, as the SQL SELECT does. -/
def expandStar (t : String) (cols : List String) : List String :=
  cols.flatMap (fun c =>
    if c = "*" then
      match getTableMetaByName t with
      | some m => m.columns
      | none => []
    else [c])

/-- projectRow projects one virtual row to the requested population
columns. -/
def projectRow (t : String) (cols : List String) (r : Row) : List Value :=
  (expandStar t cols).map (rowLookup r)

/-- restrictSchema models the catalog's schema emission restricted to the
requested columns: the catalog column list filtered to the (expanded)
requested set. -/
def restrictSchema (t : String) (cols : List String) : List String :=
  match getTableMetaByName t with
  | some m => m.columns.filter (fun c => c ∈ expandStar t cols)
  | none => []

/-- PDB is the persistent populated database: per table its created
schema columns and its inserted rows. -/
abbrev PDB := List (String × (List String × List (List Value)))

/-- appendRows embeds INSERT INTO populated.table. -/
def appendRows (p : PDB) (t : String) (rows : List (List Value)) : PDB :=
  p.map (fun e => if e.1 = t then (e.1, (e.2.1, e.2.2 ++ rows)) else e)

/-- insertRowsFor is the row set populate_table inserts for one table and
one container: with a condition, the virtual rows of the container
inner-joined to temp_combined on rowid; without one, the plain projection
of the container's rows. -/
def insertRowsFor (corpus : Corpus) (temps : TempState) (cond : Option Cond)
    (t : String) (cols : List String) (i : Nat) : List (List Value) :=
  let base := (getVTable corpus t).filter (fun r => r.containerId == i)
  match cond with
  | some _ =>
      let combined := (temps.lookup "temp_combined").getD []
      base.flatMap (fun r =>
        (combined.filter
          (fun cr => sqlEq (sliceLook cr (t ++ "_rowid")) (Value.vInt r.rowid))).map
          (fun _ => projectRow t cols r))
  | none => base.map (projectRow t cols)

/-- populateContainer processes one container: with a condition, recreate
the temp slices and temp_combined, then insert every populated table's
surviving rows; without one, just insert the container's projections. -/
def populateContainer (corpus : Corpus) (pop qc : Dict) (cond : Option Cond)
    (st : PDB × TempState) (i : Nat) : PDB × TempState :=
  let temps1 := match cond with
    | some c => containerTemps corpus pop qc c st.2 i
    | none => st.2
  let pdb1 := pop.foldl
    (fun p tc => appendRows p tc.1 (insertRowsFor corpus temps1 cond tc.1 tc.2 i))
    st.1
  (pdb1, temps1)

/-- createPopTables drops each table to be populated (if it exists) and
recreates it empty with the restricted schema. -/
def createPopTables (pop : Dict) (pdb : PDB) : PDB :=
  pop.foldl (fun p tc => setTable p tc.1 (restrictSchema tc.1 tc.2, [])) pdb

/-- PopulateResult is everything populate_database leaves behind: the
persistent database, the session's temporary tables, and the two column
dictionaries. -/
structure PopulateResult where
  pdb : PDB
  temps : TempState
  queryCols : Dict
  popCols : Dict

/-- defaultedCols defaults an absent columns list to every table's star
specification. -/
def defaultedCols (parsedCols : List (String × String)) :
    List (String × String) :=
  if parsedCols.isEmpty then crossrefTables.map (fun m => (m.name, "*"))
  else parsedCols

/-- populatePop is population_columns as populate_database builds it. -/
def populatePop (parsedCols : List (String × String)) (pop0 : Dict) : Dict :=
  buildPop pop0 (defaultedCols parsedCols)

/-- populateDatabase embeds CrossrefMetaData.populate_database on parsed
column specifications: default the specifications to every table's star
when none are given, build population_columns, plan query_columns from
the optional condition, drop and recreate the target tables, then
populate them container by container.  The fourth parameter embeds the
source's unconsumed indexes parameter. -/
def populateDatabase (corpus : Corpus) (parsedCols : List (String × String))
    (cond : Option Cond) (_indexes : List (List String))
    (pop0 qc0 : Dict) (temps0 : TempState) (pdb0 : PDB) : PopulateResult :=
  let pop := populatePop parsedCols pop0
  let qc := planQueryColumns pop qc0 (cond.map (fun c => c.refs))
  let pdb1 := createPopTables pop pdb0
  let fin := corpus.fileIds.foldl (populateContainer corpus pop qc cond)
    (pdb1, temps0)
  { pdb := fin.1, temps := fin.2, queryCols := qc, popCols := pop }

/-- projectRowWith projects one virtual row to the population columns as
enumerated by the given set-iteration order.  The source's populate_table
builds the INSERT's select list by iterating the Python set
self.population_columns[table]; under CPython's hash randomization that
iteration order can differ between interpreter runs, so the model makes
it an explicit parameter (a reordering of the insertion-ordered set). -/
def projectRowWith (ord : List String → List String) (t : String)
    (cols : List String) (r : Row) : List Value :=
  (expandStar t (ord cols)).map (rowLookup r)

/-- insertRowsForWith is insertRowsFor with the set-iteration order of
the population column set made explicit. -/
def insertRowsForWith (ord : List String → List String) (corpus : Corpus)
    (temps : TempState) (cond : Option Cond) (t : String)
    (cols : List String) (i : Nat) : List (List Value) :=
  let base := (getVTable corpus t).filter (fun r => r.containerId == i)
  match cond with
  | some _ =>
      let combined := (temps.lookup "temp_combined").getD []
      base.flatMap (fun r =>
        (combined.filter
          (fun cr => sqlEq (sliceLook cr (t ++ "_rowid")) (Value.vInt r.rowid))).map
          (fun _ => projectRowWith ord t cols r))
  | none => base.map (projectRowWith ord t cols)

/-- populateContainerWith is populateContainer with the set-iteration
order made explicit. -/
def populateContainerWith (ord : List String → List String) (corpus : Corpus)
    (pop qc : Dict) (cond : Option Cond) (st : PDB × TempState) (i : Nat) :
    PDB × TempState :=
  let temps1 := match cond with
    | some c => containerTemps corpus pop qc c st.2 i
    | none => st.2
  let pdb1 := pop.foldl
    (fun p tc =>
      appendRows p tc.1 (insertRowsForWith ord corpus temps1 cond tc.1 tc.2 i))
    st.1
  (pdb1, temps1)

/-- populateDatabaseWith is populateDatabase with the interpreter's set
iteration order over each population column set made an explicit
parameter; populateDatabase itself fixes insertion order. -/
def populateDatabaseWith (ord : List String → List String) (corpus : Corpus)
    (parsedCols : List (String × String)) (cond : Option Cond)
    (_indexes : List (List String)) (pop0 qc0 : Dict) (temps0 : TempState)
    (pdb0 : PDB) : PopulateResult :=
  let pop := populatePop parsedCols pop0
  let qc := planQueryColumns pop qc0 (cond.map (fun c => c.refs))
  let pdb1 := createPopTables pop pdb0
  let fin := corpus.fileIds.foldl (populateContainerWith ord corpus pop qc cond)
    (pdb1, temps0)
  { pdb := fin.1, temps := fin.2, queryCols := qc, popCols := pop }

/-- AffRow is a row of the populated author_affiliations table as the
normalizer reads it. -/
structure AffRow where
  author_id : Int
  name : String
  deriving DecidableEq, Repr

/-- WARow is a row of the populated work_authors table as the normalizer
reads it. -/
structure WARow where
  id : Int
  work_doi : String
  deriving DecidableEq, Repr

/-- numberFrom assigns consecutive row numbers starting at k, as the
row_number window does over the distinct-name subquery. -/
def numberFrom (k : Nat) : List String → List (Nat × String)
  | [] => []
  | n :: rest => (k, n) :: numberFrom (k + 1) rest

/-- affiliationNames embeds the affiliation_names creation: the distinct
names of author_affiliations with row-number identifiers. -/
def affiliationNames (aas : List AffRow) : List (Nat × String) :=
  numberFrom 1 (aas.map (fun a => a.name)).dedup

/-- authorsAffiliations embeds the authors_affiliations creation: the
inner name-join of affiliation_names with author_affiliations, giving
(affiliation_id, author_id) pairs. -/
def authorsAffiliations (aas : List AffRow) : List (Nat × Int) :=
  (affiliationNames aas).flatMap (fun an =>
    (aas.filter (fun aa => aa.name == an.2)).map (fun aa => (an.1, aa.author_id)))

/-- affiliationsWorks embeds the affiliations_works creation: the
distinct (affiliation_id, work_doi) pairs of the left join of
authors_affiliations with work_authors on author_id; an unmatched author
contributes a NULL work_doi. -/
def affiliationsWorks (aas : List AffRow) (was : List WARow) :
    List (Nat × Option String) :=
  ((authorsAffiliations aas).flatMap (fun p =>
    let ms := was.filter (fun w => w.id == p.2)
    if ms.isEmpty then [(p.1, (none : Option String))]
    else ms.map (fun w => (p.1, some w.work_doi)))).dedup

/-- ExitKind is how a run of the command-line tool can terminate early:
through the fail helper (one diagnostic line on stderr and exit code 1),
or through an uncaught Python exception (a multi-line traceback and a
non-zero exit). -/
inductive ExitKind where
  | failDiagnostic (msg : String)
  | unhandledException (msg : String)
  deriving DecidableEq, Repr

/-- splitOnChar splits a character list at every occurrence of the
separator, as Python str.split does with a one-character separator. -/
def splitOnChar (c : Char) : List Char → List (List Char)
  | [] => [[]]
  | x :: xs =>
      let r := splitOnChar c xs
      if x = c then [] :: r
      else
        match r with
        | [] => [[x]]
        | h :: t => (x :: h) :: t

/-- pySplitDot is Python's col.split applied with a dot separator. -/
def pySplitDot (s : String) : List String :=
  (splitOnChar (Char.ofNat 46) s.toList).map (fun cs => String.mk cs)

/-- exceptDecEq decides equality of Except values componentwise. -/
instance exceptDecEq {A B : Type} [DecidableEq A] [DecidableEq B] :
    DecidableEq (Except A B) := fun x y =>
  match x, y with
  | Except.error a, Except.error b =>
      if h : a = b then Decidable.isTrue (by rw [h])
      else Decidable.isFalse (by intro he; cases he; exact h rfl)
  | Except.ok a, Except.ok b =>
      if h : a = b then Decidable.isTrue (by rw [h])
      else Decidable.isFalse (by intro he; cases he; exact h rfl)
  | Except.error a, Except.ok b => Decidable.isFalse (by intro he; cases he)
  | Except.ok a, Except.error b => Decidable.isFalse (by intro he; cases he)

/-- parseColumnSpec embeds the column-specification handling of
populate_database: the tuple unpacking of col.split raises ValueError
unless the split yields exactly two parts, and only afterwards can the
emptiness test reach the single-line fail diagnostic. -/
def parseColumnSpec (col : String) : Except ExitKind (String × String) :=
  match pySplitDot col with
  | [t, c] =>
      if t = "" ∨ c = "" then
        Except.error (ExitKind.failDiagnostic ("Invalid column specification: " ++ col))
      else Except.ok (t, c)
  | _ => Except.error (ExitKind.unhandledException
      "ValueError: tuple unpacking of col.split")

/-- mainConfigCheck embeds main's configuration checks, in the order the
source performs them: ORCID side-load without an output database path,
a query without a corpus directory, and normalization without an output
database path each reach fail. -/
def mainConfigCheck (crossrefDir populateDbPath : Option String)
    (orcidData queryRequested normalizeFlag : Bool) : Except ExitKind Unit :=
  if orcidData && populateDbPath.isNone then
    Except.error (ExitKind.failDiagnostic "Database path must be specified")
  else if queryRequested && crossrefDir.isNone then
    Except.error (ExitKind.failDiagnostic "Crossref data directory must be specified")
  else if normalizeFlag && populateDbPath.isNone then
    Except.error (ExitKind.failDiagnostic "Database path must be specified")
  else Except.ok ()

/-- sampleCorpus is a two-container fixture: one work per container. -/
def sampleCorpus : Corpus :=
  { tables := [("works",
      [ { rowid := 1, containerId := 0, cols := [("doi", Value.vStr "a"), ("title", Value.vStr "Alpha")] },
        { rowid := 2, containerId := 1, cols := [("doi", Value.vStr "b"), ("title", Value.vStr "Beta")] } ])],
    fileIds := [0, 1] }

/-- countWorksQuery is the aggregate query SELECT count(*) FROM works: it
references no logical column at all, so the authorizer records nothing
for it. -/
def countWorksQuery : Query := Query.countAll "works"

/-- doiOfTitleQuery is a plain select-project query over works: it
filters on title and projects doi. -/
def doiOfTitleQuery : Query :=
  Query.select "works" ["title"] (fun vs => vs.contains (Value.vStr "Alpha"))
    ["doi"] (fun vs => vs)

/-- yearCorpus is a two-container fixture whose two works share the same
publication year, so a year self-join matches across containers. -/
def yearCorpus : Corpus :=
  { tables := [("works",
      [ { rowid := 1, containerId := 0,
          cols := [("doi", Value.vStr "a"), ("published_year", Value.vInt 2000)] },
        { rowid := 2, containerId := 1,
          cols := [("doi", Value.vStr "b"), ("published_year", Value.vInt 2000)] } ])],
    fileIds := [0, 1] }

/-- yearJoinQuery is a self-join of works on equal publication years,
projecting both dois; it references only logical columns yet its
predicate matches rows from different containers. -/
def yearJoinQuery : Query :=
  Query.join "works" "works" ["published_year"] ["published_year"]
    (fun v1 v2 => v1 == v2) ["doi"] ["doi"] (fun d1 d2 => d1 ++ d2)

/-- fkCorpus is a two-container fixture with works and their authors,
each author row referencing its own container's work through
work_doi. -/
def fkCorpus : Corpus :=
  { tables :=
      [ ("works",
          [ { rowid := 1, containerId := 0, cols := [("doi", Value.vStr "a")] },
            { rowid := 2, containerId := 1, cols := [("doi", Value.vStr "b")] } ]),
        ("work_authors",
          [ { rowid := 1, containerId := 0,
              cols := [("work_doi", Value.vStr "a"), ("family", Value.vStr "F1")] },
            { rowid := 2, containerId := 1,
              cols := [("work_doi", Value.vStr "b"), ("family", Value.vStr "F2")] } ])],
    fileIds := [0, 1] }

/-- fkJoinQuery is the S4-style parent/foreign-key join of works with
work_authors on doi = work_doi. -/
def fkJoinQuery : Query :=
  Query.join "works" "work_authors" ["doi"] ["work_doi"]
    (fun v1 v2 => v1 == v2) ["doi"] ["family"] (fun d f => d ++ f)

/-- tempPairs lists, for container i, the temp slice table written for
every involved table, in write order. -/
def tempPairs (corpus : Corpus) (union : List String) (qc : Dict) (i : Nat) :
    TempState :=
  union.map (fun t => ("temp_" ++ t, sliceOf corpus (populateSliceCols qc t) t i))

/-- writePairs writes a sequence of tables (drop-if-exists plus create)
into a connection state. -/
def writePairs {β : Type} (st : List (String × β)) (ps : List (String × β)) :
    List (String × β) :=
  ps.foldl (fun s p => setTable s p.1 p.2) st

/-- sampleCond is a concrete population condition over works.title that
keeps every joined row. -/
def sampleCond : Cond :=
  { refs := [("works", "title")], eval := fun _ => true }

theorem mem_setInsert_self (s : List String) (c : String) : c ∈ setInsert s c := by
  unfold setInsert
  by_cases h : c ∈ s
  · simp [h]
  · simp [h]

theorem mem_setInsert_of_mem (s : List String) (c c' : String) (h : c' ∈ s) :
    c' ∈ setInsert s c := by
  unfold setInsert
  by_cases hc : c ∈ s
  · simpa [hc]
  · simp [hc, h]

theorem hasColB_addColumn_self (d : Dict) (t c : String) :
    hasColB (addColumn d t c) t c = true := by
  induction d with
  | nil => simp [addColumn, hasColB, List.lookup]
  | cons p d ih =>
      obtain ⟨k, s⟩ := p
      by_cases hk : k = t
      · subst hk
        simp only [addColumn, if_pos rfl, hasColB, List.lookup, beq_self_eq_true]
        simpa using mem_setInsert_self s c
      · simp only [addColumn, if_neg hk, hasColB, List.lookup]
        have : (t == k) = false := by
          simp [beq_iff_eq]
          exact fun h => hk h.symm
        simpa [this, hasColB] using ih

theorem hasColB_addColumn_of_hasColB (d : Dict) (t c t' c' : String)
    (h : hasColB d t' c' = true) : hasColB (addColumn d t c) t' c' = true := by
  induction d with
  | nil => simp [hasColB, List.lookup] at h
  | cons p d ih =>
      obtain ⟨k, s⟩ := p
      by_cases hk : k = t
      · subst hk
        simp only [addColumn, if_pos rfl]
        by_cases ht : t' = k
        · subst ht
          simp only [hasColB, List.lookup, beq_self_eq_true] at h ⊢
          have hm : c' ∈ s := by simpa using h
          simpa using mem_setInsert_of_mem s c c' hm
        · have : (t' == k) = false := by simpa [beq_iff_eq] using ht
          simp only [hasColB, List.lookup, this] at h ⊢
          exact h
      · simp only [addColumn, if_neg hk]
        by_cases ht : t' = k
        · subst ht
          simp only [hasColB, List.lookup, beq_self_eq_true] at h ⊢
          exact h
        · have : (t' == k) = false := by simpa [beq_iff_eq] using ht
          simp only [hasColB, List.lookup, this] at h ⊢
          exact ih h

theorem hasColB_addCols_of_hasColB (ps : List (String × String)) (d : Dict)
    (t c : String) (h : hasColB d t c = true) :
    hasColB (addCols d ps) t c = true := by
  induction ps generalizing d with
  | nil => simpa [addCols]
  | cons p ps ih =>
      simp only [addCols, List.foldl_cons]
      exact ih _ (hasColB_addColumn_of_hasColB d p.1 p.2 t c h)

theorem hasColB_addCols_of_mem (ps : List (String × String)) (d : Dict)
    (t c : String) (h : (t, c) ∈ ps) :
    hasColB (addCols d ps) t c = true := by
  induction ps generalizing d with
  | nil => simp at h
  | cons p ps ih =>
      simp only [addCols, List.foldl_cons]
      rcases List.mem_cons.mp h with h1 | h2
      · subst h1
        exact hasColB_addCols_of_hasColB ps _ t c (hasColB_addColumn_self d t c)
      · exact ih _ h2

/-- chainCovered_of_pairs reduces chain coverage to membership of the
walk's collected pairs. -/
theorem chainCovered_of_pairs (fuel : Nat) :
    ∀ (tn : String) (qc : Dict),
      (∀ p ∈ toAddFrom fuel tn, hasColB qc p.1 p.2 = true) →
      chainCoveredB qc fuel tn = true := by
  induction fuel with
  | zero => intro tn qc _; rfl
  | succ n ih =>
      intro tn qc h
      simp only [toAddFrom] at h
      simp only [chainCoveredB]
      cases hm : getTableMetaByName tn with
      | none => rfl
      | some m =>
          rw [hm] at h
          dsimp only at h
          simp only [Bool.and_eq_true]
          refine ⟨⟨?_, ?_⟩, ?_⟩
          · cases hfk : m.foreignKey with
            | none => rfl
            | some fk =>
                rw [hfk] at h
                exact h (tn, fk) (List.mem_append_left _ (List.mem_append_left _ (by simp)))
          · cases hp : m.parentName with
            | none => rfl
            | some p =>
                cases hpk : m.primaryKey with
                | none => rfl
                | some pk =>
                    rw [hp, hpk] at h
                    exact h (p, pk)
                      (List.mem_append_left _ (List.mem_append_right _ (by simp)))
          · cases hp : m.parentName with
            | none => rfl
            | some p =>
                rw [hp] at h
                exact ih p qc (fun pr hpr => h pr (List.mem_append_right _ hpr))

/-- C2 counterexample: with the columns list author_affiliations.name and
no condition, population planning leaves query_columns empty, although
author_affiliations is in population_columns and its foreign key is
author_id; the claim fails for an absent condition because
set_join_columns only runs when a condition is given. -/
theorem claim2_counterexample :
    (getTableMetaByName "author_affiliations").map (fun m => m.foreignKey)
      = some (some "author_id") ∧
    "author_affiliations" ∈
      dictKeys (buildPop [] [("author_affiliations", "name")]) ∧
    hasColB
      (planQueryColumns (buildPop [] [("author_affiliations", "name")]) [] none)
      "author_affiliations" "author_id" = false := by
  refine ⟨by decide, by decide, by decide⟩

/-- C2 (amended: when a condition is given): after population planning
with a condition, every table in population_columns has its foreign key
in query_columns and the referenced parent key under its parent,
transitively up the parent chain to the root. -/
theorem claim2_join_closure (parsedCols condRefs : List (String × String))
    (pop0 qc0 : Dict) (t : String)
    (ht : t ∈ dictKeys (buildPop pop0 parsedCols)) :
    chainCoveredB
      (planQueryColumns (buildPop pop0 parsedCols) qc0 (some condRefs))
      catalogFuel t = true := by
  apply chainCovered_of_pairs
  intro p hp
  obtain ⟨pt, pc⟩ := p
  unfold planQueryColumns setJoinColumns
  apply hasColB_addCols_of_mem
  apply List.mem_flatMap.mpr
  refine ⟨t, ?_, hp⟩
  unfold unionTables
  exact List.mem_dedup.mpr (List.mem_append_left _ ht)

/-- C2 witness: the amended claim at the concrete S3-style input. -/
theorem claim2_join_closure_witness :
    chainCoveredB
      (planQueryColumns (buildPop [] [("author_affiliations", "name")]) []
        (some [("works", "title")]))
      catalogFuel "author_affiliations" = true :=
  claim2_join_closure [("author_affiliations", "name")] [("works", "title")]
    [] [] "author_affiliations" (by decide)

/-- C4: for every analyzed statement, the engine call made by
set_query_columns terminates with the distinguished aborted-by-trace
signal; set_query_columns catches and swallows it (no error escapes),
and the call's net effect is only to fold the statement's column
references into query_columns, with the data untouched. -/
theorem claim4_analysis_abort (qc : Dict) (data : Corpus) (q : Query) :
    executeWithTraceAbort qc data q
      = (analyzeInto qc q, data, EngineError.execTraceAbort) ∧
    setQueryColumnsModel qc data q = (analyzeInto qc q, data, false) :=
  ⟨rfl, rfl⟩

/-- C8: a column specification without a dot makes the tuple unpacking of
col.split raise an uncaught ValueError (a multi-line traceback), not the
single-line fail diagnostic the nearby check would produce; specifications
with an empty side do reach the single-line diagnostic. -/
theorem claim8_malformed_spec_unhandled :
    parseColumnSpec "works"
      = Except.error (ExitKind.unhandledException
          "ValueError: tuple unpacking of col.split") ∧
    parseColumnSpec "works.doi.x"
      = Except.error (ExitKind.unhandledException
          "ValueError: tuple unpacking of col.split") ∧
    parseColumnSpec ".doi"
      = Except.error (ExitKind.failDiagnostic
          "Invalid column specification: .doi") ∧
    mainConfigCheck none (some "out.db") false true false
      = Except.error (ExitKind.failDiagnostic
          "Crossref data directory must be specified") ∧
    mainConfigCheck (some "dir") none false false true
      = Except.error (ExitKind.failDiagnostic
          "Database path must be specified") := by
  refine ⟨by decide, by decide, by decide, by decide, by decide⟩

/-- C9: populate_database never consumes its indexes argument, so two
runs differing only in that argument leave identical persistent
databases, temporary tables and column dictionaries. -/
theorem claim9_indexes_unused (corpus : Corpus)
    (parsedCols : List (String × String)) (cond : Option Cond)
    (idx1 idx2 : List (List String)) (pop0 qc0 : Dict) (temps0 : TempState)
    (pdb0 : PDB) :
    populateDatabase corpus parsedCols cond idx1 pop0 qc0 temps0 pdb0
      = populateDatabase corpus parsedCols cond idx2 pop0 qc0 temps0 pdb0 :=
  rfl

/-- dropAll_self removes a whole association list by dropping its keys in
order. -/
theorem dropAll_self {β : Type} (l : List (String × β)) :
    dropAll l (l.map (fun p => p.1)) = [] := by
  induction l with
  | nil => rfl
  | cons p l ih =>
      obtain ⟨k, v⟩ := p
      simp only [List.map_cons, dropAll, List.foldl_cons]
      have h1 : dropTable ((k, v) :: l) k = l := by
        simp [dropTable]
      rw [h1]
      exact ih

/-- slicesDict_keys: the created tables carry exactly the dictionary's
keys, in order. -/
theorem slicesDict_keys (corpus : Corpus) (qc : Dict) (i : Nat) :
    (slicesDict corpus qc i).map (fun p => p.1) = dictKeys qc := by
  simp [slicesDict, dictKeys]

/-- partitionStep_clean: one partitioned iteration started with no
created tables yields the container's result set and again leaves no
created tables. -/
theorem partitionStep_clean (corpus : Corpus) (qc : Dict) (q : Query)
    (i : Nat) :
    partitionStep corpus qc q [] i = (containerResult corpus qc q i, []) := by
  unfold partitionStep containerResult
  simp only [List.nil_append]
  rw [show dictKeys qc = (slicesDict corpus qc i).map (fun p => p.1) from
    (slicesDict_keys corpus qc i).symm]
  rw [dropAll_self]

/-- partitionLoop_clean: the partitioned loop started with no created
tables yields the concatenation of the per-container result sets in
iterator order and drops every table it created. -/
theorem partitionLoop_clean (corpus : Corpus) (qc : Dict) (q : Query)
    (ids : List Nat) :
    partitionLoop corpus qc q ids []
      = (ids.flatMap (containerResult corpus qc q), []) := by
  induction ids with
  | nil => rfl
  | cons i ids ih =>
      simp only [partitionLoop, partitionStep_clean, ih, List.flatMap_cons]

/-- C5: in partitioned mode, query yields exactly the concatenation of
the per-container result sets, in the order of the container iterator,
each container's result being the query run over that container's
materialized slices (whose internal order follows the virtual table's
record order). -/
theorem claim5_partition_concatenation (corpus : Corpus) (qc0 : Dict)
    (q : Query) :
    (queryModel corpus qc0 q true).1
      = corpus.fileIds.flatMap (containerResult corpus (analyzeInto qc0 q) q) := by
  unfold queryModel
  simp [partitionLoop_clean]

/-- hasColB_lookup turns a positive hasColB fact into the underlying
association-list entry. -/
theorem hasColB_lookup (d : Dict) (t c : String) (h : hasColB d t c = true) :
    ∃ s, d.lookup t = some s ∧ c ∈ s := by
  unfold hasColB at h
  cases hl : d.lookup t with
  | none => rw [hl] at h; simp at h
  | some s =>
      rw [hl] at h
      exact ⟨s, rfl, by simpa using h⟩

/-- lookup_slicesDict: the created table for a dictionary key is the
slice of that key's table over that key's recorded columns. -/
theorem lookup_slicesDict (corpus : Corpus) (qc : Dict) (i : Nat)
    (t : String) (cs : List String) (h : qc.lookup t = some cs) :
    (slicesDict corpus qc i).lookup t = some (sliceOf corpus cs t i) := by
  induction qc with
  | nil => simp [List.lookup] at h
  | cons p qc ih =>
      obtain ⟨k, s⟩ := p
      simp only [slicesDict, List.map_cons, List.lookup] at h ⊢
      cases hk : (t == k) with
      | true =>
          rw [hk] at h
          simp only [Option.some.injEq] at h
          subst h
          have : t = k := by simpa [beq_iff_eq] using hk
          subst this
          rfl
      | false =>
          rw [hk] at h
          exact ih h

/-- lookup_mkSliceRow: a materialized column of a slice row reads back
exactly as it does on the virtual row. -/
theorem lookup_mkSliceRow (cs : List String) (r : Row) (c : String)
    (h : c ∈ cs) : sliceLook (mkSliceRow cs r) c = rowLookup r c := by
  induction cs with
  | nil => simp at h
  | cons c1 cs ih =>
      simp only [mkSliceRow, List.map_cons, sliceLook, List.lookup]
      cases hc : (c == c1) with
      | true =>
          have : c = c1 := by simpa [beq_iff_eq] using hc
          subst this
          simp
      | false =>
          have hne : c ≠ c1 := by simpa [beq_iff_eq] using hc
          have hmem : c ∈ cs := by
            rcases List.mem_cons.mp h with h1 | h2
            · exact absurd h1 hne
            · exact h2
          simpa [mkSliceRow, sliceLook] using ih hmem

theorem filter_map_map {A B C : Type} (l : List A) (m : A → B)
    (p : B → Bool) (g : B → C) :
    ((l.map m).filter p).map g = (l.filter (p ∘ m)).map (g ∘ m) := by
  rw [List.filter_map, List.map_map]

theorem filter_within {A : Type} (l : List A) (p q : A → Bool)
    (h : ∀ x ∈ l, p x = true → q x = true) :
    l.filter p = (l.filter q).filter p := by
  induction l with
  | nil => rfl
  | cons x l ih =>
      have ih2 := ih (fun y hy hpy => h y (List.mem_cons_of_mem _ hy) hpy)
      cases hp : p x with
      | true =>
          have hq := h x (List.mem_cons_self x l) hp
          simp only [List.filter_cons, hp, hq, if_true]
          exact congrArg (List.cons x) ih2
      | false =>
          cases hq : q x with
          | true =>
              simp only [List.filter_cons, hp, hq, if_true, Bool.false_eq_true,
                if_false]
              exact ih2
          | false =>
              simp only [List.filter_cons, hp, hq, Bool.false_eq_true, if_false]
              exact ih2

/-- mkSliceRow_fun_agree: reading the listed columns of a materialized
row equals reading them off the virtual row, when the slice holds every
listed column. -/
theorem mkSliceRow_fun_agree (cs ref : List String) (r : Row)
    (hsub : ∀ c ∈ ref, c ∈ cs) :
    ref.map (sliceLook (mkSliceRow cs r)) = ref.map (rowLookup r) := by
  apply List.map_congr_left
  intro c hc
  exact lookup_mkSliceRow cs r c (hsub c hc)

/-- select_slice_run: filtering and projecting a container's materialized
slice equals filtering and projecting the container's virtual rows,
provided the slice materializes every referenced column. -/
theorem select_slice_run (corpus : Corpus) (cs pc jc : List String)
    (pred : List Value → Bool) (proj : List Value → List Value)
    (t : String) (i : Nat) (hsub : ∀ c ∈ pc ++ jc, c ∈ cs) :
    (((sliceOf corpus cs t i).map (fun sr => sliceLook sr)).filter
        (fun f => pred (pc.map f))).map (fun f => proj (jc.map f))
      = (((getVTable corpus t).filter (fun r => r.containerId == i)).filter
          (fun r => pred (pc.map (rowLookup r)))).map
          (fun r => proj (jc.map (rowLookup r))) := by
  unfold sliceOf
  rw [List.map_map, filter_map_map]
  have hpred : ∀ r ∈ (getVTable corpus t).filter (fun r => r.containerId == i),
      ((fun f => pred (pc.map f)) ∘ ((fun sr => sliceLook sr) ∘ mkSliceRow cs)) r
        = (fun r => pred (pc.map (rowLookup r))) r := by
    intro r _
    simp only [Function.comp]
    congr 1
    exact mkSliceRow_fun_agree cs pc r
      (fun c hc => hsub c (List.mem_append_left _ hc))
  rw [List.filter_congr hpred]
  apply List.map_congr_left
  intro r _
  simp only [Function.comp]
  congr 1
  exact mkSliceRow_fun_agree cs jc r
    (fun c hc => hsub c (List.mem_append_right _ hc))

/-- flatMap_congr_mem: flatMap respects pointwise equality on the list. -/
theorem flatMap_congr_mem {α β : Type} (l : List α) (f g : α → List β)
    (h : ∀ a ∈ l, f a = g a) : l.flatMap f = l.flatMap g := by
  induction l with
  | nil => rfl
  | cons a l ih =>
      simp only [List.flatMap_cons]
      rw [h a (List.mem_cons_self a l), ih (fun x hx => h x (List.mem_cons_of_mem a hx))]

/-- bucket_cons: prepending a row to the table moves it to the front of
its container's bucket, a permutation away from prepending it to the
bucketed whole. -/
theorem bucket_cons (ids : List Nat) (r : Row) (l : List Row)
    (hnd : ids.Nodup) (hmem : r.containerId ∈ ids) :
    List.Perm
      (ids.flatMap (fun i => (r :: l).filter (fun x => x.containerId == i)))
      (r :: ids.flatMap (fun i => l.filter (fun x => x.containerId == i))) := by
  obtain ⟨a, b, rfl⟩ := List.append_of_mem hmem
  have hnd' := List.nodup_append.mp hnd
  have hia : r.containerId ∉ a := by
    intro ha
    exact hnd'.2.2 ha (List.mem_cons_self _ _)
  have hfi : ∀ i, i ≠ r.containerId →
      (r :: l).filter (fun x => x.containerId == i)
        = l.filter (fun x => x.containerId == i) := by
    intro i hi
    rw [List.filter_cons]
    have : (r.containerId == i) = false := by
      simp only [beq_eq_false_iff_ne, ne_eq]
      exact fun h => hi h.symm
    rw [this]
    simp
  have hfr : (r :: l).filter (fun x => x.containerId == r.containerId)
      = r :: l.filter (fun x => x.containerId == r.containerId) := by
    rw [List.filter_cons]
    simp
  rw [List.flatMap_append, List.flatMap_cons, List.flatMap_append,
    List.flatMap_cons]
  rw [flatMap_congr_mem a _ _ (fun i hi => hfi i (fun he => hia (he ▸ hi)))]
  rw [flatMap_congr_mem b _ _ (fun i hi => hfi i (by
    intro he
    subst he
    exact (List.nodup_cons.mp hnd'.2.1).1 hi))]
  rw [hfr]
  simp only [List.cons_append]
  exact List.perm_middle

/-- bucket_perm: when the iterator lists each container once and every
row's container is listed, bucketing a table by container is a
permutation of the table. -/
theorem bucket_perm (ids : List Nat) (l : List Row) (hnd : ids.Nodup)
    (hall : ∀ r ∈ l, r.containerId ∈ ids) :
    List.Perm
      (ids.flatMap (fun i => l.filter (fun x => x.containerId == i))) l := by
  induction l with
  | nil => simp
  | cons r l ih =>
      have h1 := bucket_cons ids r l hnd (hall r (List.mem_cons_self r l))
      have h2 := ih (fun x hx => hall x (List.mem_cons_of_mem r hx))
      exact h1.trans (h2.cons r)

/-- flatMap_filter_map_out: per-bucket filter-then-project concatenates
to filter-then-project of the concatenation. -/
theorem flatMap_filter_map_out (ids : List Nat) (l : List Row)
    (p : Row → Bool) (f : Row → List Value) :
    ids.flatMap (fun i =>
        ((l.filter (fun x => x.containerId == i)).filter p).map f)
      = ((ids.flatMap (fun i => l.filter (fun x => x.containerId == i))).filter
          p).map f := by
  induction ids with
  | nil => simp
  | cons i ids ih =>
      simp only [List.flatMap_cons, List.filter_append, List.map_append, ih]

/-- join_slice_run: the nested-loop join of two containers' materialized
slices equals the nested-loop join of the containers' virtual rows,
provided each slice materializes every column the query reads from its
table. -/
theorem join_slice_run (corpus : Corpus) (cs1 cs2 pc1 pc2 jc1 jc2 : List String)
    (pred : List Value → List Value → Bool)
    (proj : List Value → List Value → List Value)
    (t1 t2 : String) (i : Nat)
    (hsub1 : ∀ c ∈ pc1 ++ jc1, c ∈ cs1)
    (hsub2 : ∀ c ∈ pc2 ++ jc2, c ∈ cs2) :
    ((sliceOf corpus cs1 t1 i).map (fun sr => sliceLook sr)).flatMap (fun f1 =>
        (((sliceOf corpus cs2 t2 i).map (fun sr => sliceLook sr)).filter
            (fun f2 => pred (pc1.map f1) (pc2.map f2))).map
          (fun f2 => proj (jc1.map f1) (jc2.map f2)))
      = ((getVTable corpus t1).filter (fun r => r.containerId == i)).flatMap
          (fun r1 =>
            (((getVTable corpus t2).filter (fun r => r.containerId == i)).filter
                (fun r2 => pred (pc1.map (rowLookup r1))
                  (pc2.map (rowLookup r2)))).map
              (fun r2 => proj (jc1.map (rowLookup r1))
                (jc2.map (rowLookup r2)))) := by
  unfold sliceOf
  simp only [List.map_map]
  rw [List.flatMap_map]
  apply flatMap_congr_mem
  intro r1 _
  simp only [Function.comp]
  have e1p : pc1.map (sliceLook (mkSliceRow cs1 r1)) = pc1.map (rowLookup r1) :=
    mkSliceRow_fun_agree cs1 pc1 r1
      (fun c hc => hsub1 c (List.mem_append_left _ hc))
  have e1j : jc1.map (sliceLook (mkSliceRow cs1 r1)) = jc1.map (rowLookup r1) :=
    mkSliceRow_fun_agree cs1 jc1 r1
      (fun c hc => hsub1 c (List.mem_append_right _ hc))
  rw [filter_map_map]
  have hpred : ∀ r2 ∈ (getVTable corpus t2).filter (fun r => r.containerId == i),
      ((fun f2 => pred (pc1.map (sliceLook (mkSliceRow cs1 r1))) (pc2.map f2)) ∘
          ((fun sr => sliceLook sr) ∘ mkSliceRow cs2)) r2
        = (fun r2 => pred (pc1.map (rowLookup r1)) (pc2.map (rowLookup r2))) r2 := by
    intro r2 _
    simp only [Function.comp]
    rw [e1p, mkSliceRow_fun_agree cs2 pc2 r2
      (fun c hc => hsub2 c (List.mem_append_left _ hc))]
  rw [List.filter_congr hpred]
  apply List.map_congr_left
  intro r2 _
  simp only [Function.comp]
  rw [e1j, mkSliceRow_fun_agree cs2 jc2 r2
    (fun c hc => hsub2 c (List.mem_append_right _ hc))]

/-- partitioned_select_perm: for a select-project query referencing at
least one column of its table (and no rowid or container_id), streaming
and partitioned execution produce the same multiset of rows. -/
theorem partitioned_select_perm (corpus : Corpus) (t : String)
    (pc jc : List String) (pred : List Value → Bool)
    (proj : List Value → List Value)
    (hne : pc ++ jc ≠ [])
    (hall : ∀ r ∈ getVTable corpus t, r.containerId ∈ corpus.fileIds)
    (hnd : corpus.fileIds.Nodup) :
    List.Perm
      ((queryModel corpus [] (Query.select t pc pred jc proj) false).1)
      ((queryModel corpus [] (Query.select t pc pred jc proj) true).1) := by
  have hrefs : ∀ c ∈ pc ++ jc,
      hasColB (analyzeInto [] (Query.select t pc pred jc proj)) t c = true := by
    intro c hc
    apply hasColB_addCols_of_mem
    simp only [queryRefs]
    exact List.mem_map.mpr ⟨c, hc, rfl⟩
  obtain ⟨c0, hc0⟩ := List.exists_mem_of_ne_nil _ hne
  obtain ⟨cs, hlk, _⟩ := hasColB_lookup _ _ _ (hrefs c0 hc0)
  have hsub : ∀ c ∈ pc ++ jc, c ∈ cs := by
    intro c hc
    obtain ⟨s, hs, hcs⟩ := hasColB_lookup _ _ _ (hrefs c hc)
    rw [hlk] at hs
    cases hs
    exact hcs
  have hper : ∀ i ∈ corpus.fileIds,
      containerResult corpus (analyzeInto [] (Query.select t pc pred jc proj))
        (Query.select t pc pred jc proj) i
        = (((getVTable corpus t).filter (fun r => r.containerId == i)).filter
            (fun r => pred (pc.map (rowLookup r)))).map
            (fun r => proj (jc.map (rowLookup r))) := by
    intro i _
    unfold containerResult resolveRun
    have henv : resolveTable
        (slicesDict corpus (analyzeInto [] (Query.select t pc pred jc proj)) i)
        corpus t = (sliceOf corpus cs t i).map (fun sr => sliceLook sr) := by
      unfold resolveTable
      rw [lookup_slicesDict corpus _ i t cs hlk]
    show ((resolveTable _ corpus t).filter _).map _ = _
    rw [henv]
    exact select_slice_run corpus cs pc jc pred proj t i hsub
  simp only [queryModel, if_pos, if_neg]
  rw [partitionLoop_clean]
  simp only
  rw [flatMap_congr_mem _ _ _ hper]
  show ((((getVTable corpus t).map (fun r => rowLookup r)).filter _).map _).Perm _
  rw [filter_map_map]
  rw [flatMap_filter_map_out corpus.fileIds (getVTable corpus t)
    (fun r => pred (pc.map (rowLookup r))) (fun r => proj (jc.map (rowLookup r)))]
  exact List.Perm.map _ (List.Perm.filter _
    (bucket_perm corpus.fileIds (getVTable corpus t) hnd hall).symm)

/-- partitioned_join_perm: for a two-table nested-loop join whose two
scans each reference at least one column, streaming and partitioned
execution produce the same multiset of rows whenever every matching pair
of rows lives in a single container (as foreign-key joins of the corpus
do). -/
theorem partitioned_join_perm (corpus : Corpus) (t1 t2 : String)
    (pc1 pc2 jc1 jc2 : List String)
    (pred : List Value → List Value → Bool)
    (proj : List Value → List Value → List Value)
    (hne1 : pc1 ++ jc1 ≠ []) (hne2 : pc2 ++ jc2 ≠ [])
    (hall : ∀ r ∈ getVTable corpus t1, r.containerId ∈ corpus.fileIds)
    (hnd : corpus.fileIds.Nodup)
    (hloc : ∀ r1 ∈ getVTable corpus t1, ∀ r2 ∈ getVTable corpus t2,
      pred (pc1.map (rowLookup r1)) (pc2.map (rowLookup r2)) = true →
      r1.containerId = r2.containerId) :
    List.Perm
      ((queryModel corpus []
        (Query.join t1 t2 pc1 pc2 pred jc1 jc2 proj) false).1)
      ((queryModel corpus []
        (Query.join t1 t2 pc1 pc2 pred jc1 jc2 proj) true).1) := by
  have hrefs1 : ∀ c ∈ pc1 ++ jc1,
      hasColB (analyzeInto []
        (Query.join t1 t2 pc1 pc2 pred jc1 jc2 proj)) t1 c = true := by
    intro c hc
    apply hasColB_addCols_of_mem
    simp only [queryRefs]
    exact List.mem_append_left _ (List.mem_map.mpr ⟨c, hc, rfl⟩)
  have hrefs2 : ∀ c ∈ pc2 ++ jc2,
      hasColB (analyzeInto []
        (Query.join t1 t2 pc1 pc2 pred jc1 jc2 proj)) t2 c = true := by
    intro c hc
    apply hasColB_addCols_of_mem
    simp only [queryRefs]
    exact List.mem_append_right _ (List.mem_map.mpr ⟨c, hc, rfl⟩)
  obtain ⟨c1, hc1⟩ := List.exists_mem_of_ne_nil _ hne1
  obtain ⟨cs1, hlk1, _⟩ := hasColB_lookup _ _ _ (hrefs1 c1 hc1)
  obtain ⟨c2, hc2⟩ := List.exists_mem_of_ne_nil _ hne2
  obtain ⟨cs2, hlk2, _⟩ := hasColB_lookup _ _ _ (hrefs2 c2 hc2)
  have hsub1 : ∀ c ∈ pc1 ++ jc1, c ∈ cs1 := by
    intro c hc
    obtain ⟨s, hs, hcs⟩ := hasColB_lookup _ _ _ (hrefs1 c hc)
    rw [hlk1] at hs
    cases hs
    exact hcs
  have hsub2 : ∀ c ∈ pc2 ++ jc2, c ∈ cs2 := by
    intro c hc
    obtain ⟨s, hs, hcs⟩ := hasColB_lookup _ _ _ (hrefs2 c hc)
    rw [hlk2] at hs
    cases hs
    exact hcs
  have hper : ∀ i ∈ corpus.fileIds,
      containerResult corpus
        (analyzeInto [] (Query.join t1 t2 pc1 pc2 pred jc1 jc2 proj))
        (Query.join t1 t2 pc1 pc2 pred jc1 jc2 proj) i
        = ((getVTable corpus t1).filter (fun r => r.containerId == i)).flatMap
            (fun r1 =>
              (((getVTable corpus t2).filter
                  (fun r => r.containerId == i)).filter
                  (fun r2 => pred (pc1.map (rowLookup r1))
                    (pc2.map (rowLookup r2)))).map
                (fun r2 => proj (jc1.map (rowLookup r1))
                  (jc2.map (rowLookup r2)))) := by
    intro i _
    unfold containerResult resolveRun
    have henv1 : resolveTable
        (slicesDict corpus
          (analyzeInto [] (Query.join t1 t2 pc1 pc2 pred jc1 jc2 proj)) i)
        corpus t1 = (sliceOf corpus cs1 t1 i).map (fun sr => sliceLook sr) := by
      unfold resolveTable
      rw [lookup_slicesDict corpus _ i t1 cs1 hlk1]
    have henv2 : resolveTable
        (slicesDict corpus
          (analyzeInto [] (Query.join t1 t2 pc1 pc2 pred jc1 jc2 proj)) i)
        corpus t2 = (sliceOf corpus cs2 t2 i).map (fun sr => sliceLook sr) := by
      unfold resolveTable
      rw [lookup_slicesDict corpus _ i t2 cs2 hlk2]
    show (resolveTable _ corpus t1).flatMap _ = _
    rw [henv1]
    rw [flatMap_congr_mem _ _ _ (fun f1 _ => by rw [henv2])]
    exact join_slice_run corpus cs1 cs2 pc1 pc2 jc1 jc2 pred proj t1 t2 i
      hsub1 hsub2
  have hstream : (queryModel corpus []
      (Query.join t1 t2 pc1 pc2 pred jc1 jc2 proj) false).1
      = (getVTable corpus t1).flatMap (fun r1 =>
          ((getVTable corpus t2).filter
              (fun r2 => pred (pc1.map (rowLookup r1))
                (pc2.map (rowLookup r2)))).map
            (fun r2 => proj (jc1.map (rowLookup r1))
              (jc2.map (rowLookup r2)))) := by
    show ((getVTable corpus t1).map (fun r => rowLookup r)).flatMap _ = _
    rw [List.flatMap_map]
    apply flatMap_congr_mem
    intro r1 _
    simp only [virtualEnv]
    rw [filter_map_map]
    rfl
  have hpart : (queryModel corpus []
      (Query.join t1 t2 pc1 pc2 pred jc1 jc2 proj) true).1
      = (corpus.fileIds.flatMap (fun i =>
          (getVTable corpus t1).filter (fun r => r.containerId == i))).flatMap
          (fun r1 =>
            ((getVTable corpus t2).filter
                (fun r2 => pred (pc1.map (rowLookup r1))
                  (pc2.map (rowLookup r2)))).map
              (fun r2 => proj (jc1.map (rowLookup r1))
                (jc2.map (rowLookup r2)))) := by
    have hcoll : ∀ i ∈ corpus.fileIds,
        ((getVTable corpus t1).filter (fun r => r.containerId == i)).flatMap
            (fun r1 =>
              (((getVTable corpus t2).filter
                  (fun r => r.containerId == i)).filter
                  (fun r2 => pred (pc1.map (rowLookup r1))
                    (pc2.map (rowLookup r2)))).map
                (fun r2 => proj (jc1.map (rowLookup r1))
                  (jc2.map (rowLookup r2))))
          = ((getVTable corpus t1).filter (fun r => r.containerId == i)).flatMap
            (fun r1 =>
              ((getVTable corpus t2).filter
                  (fun r2 => pred (pc1.map (rowLookup r1))
                    (pc2.map (rowLookup r2)))).map
                (fun r2 => proj (jc1.map (rowLookup r1))
                  (jc2.map (rowLookup r2)))) := by
      intro i _
      apply flatMap_congr_mem
      intro r1 hr1
      have hr1m : r1 ∈ getVTable corpus t1 := (List.mem_filter.mp hr1).1
      have hr1i : r1.containerId = i := by
        have := (List.mem_filter.mp hr1).2
        simpa [beq_iff_eq] using this
      have hwithin : ∀ r2 ∈ getVTable corpus t2,
          (fun r2 => pred (pc1.map (rowLookup r1))
            (pc2.map (rowLookup r2))) r2 = true →
          (fun r => r.containerId == i) r2 = true := by
        intro r2 hr2 hp
        have hcc := hloc r1 hr1m r2 hr2 hp
        simp only [beq_iff_eq]
        rw [← hcc, hr1i]
      rw [← filter_within (getVTable corpus t2) _ _ hwithin]
    simp only [queryModel, if_pos, if_neg]
    rw [partitionLoop_clean]
    rw [flatMap_congr_mem _ _ _ hper]
    rw [flatMap_congr_mem _ _ _ hcoll]
    rw [← List.flatMap_assoc]
  rw [hstream, hpart]
  exact List.Perm.flatMap_right _
    (bucket_perm corpus.fileIds (getVTable corpus t1) hnd hall).symm

/-- C1 counterexample: two queries that satisfy the claim's premises yet
distinguish streaming from partitioned execution.  SELECT count(*) FROM
works references no column, and streaming yields one total row while
partitioned execution yields one per container.  The year self-join
references only logical columns, yet its predicate matches rows of
different containers: streaming finds all four matching pairs while
partitioned execution, joining within each container's slices, finds only
the two same-container pairs. -/
theorem claim1_counterexample :
    queryRefs countWorksQuery = [] ∧
    List.isPerm (queryModel sampleCorpus [] countWorksQuery false).1
      (queryModel sampleCorpus [] countWorksQuery true).1 = false ∧
    List.isPerm (queryModel yearCorpus [] yearJoinQuery false).1
      (queryModel yearCorpus [] yearJoinQuery true).1 = false := by
  exact ⟨rfl, by decide, by decide⟩

/-- C1 (amended): partitioned execution agrees with streaming execution,
as a multiset of rows, (1) for every select-project query referencing at
least one column of the table it scans, and (2) for every two-table join
whose scans each reference at least one column and whose matching row
pairs always share a container — in particular (3) for the concrete
foreign-key join of works with work_authors over the two-container
fixture.  Aggregate or column-less queries (counterexample's first query)
record no columns so each container falls through to the full corpus, and
joins whose predicate matches across containers (counterexample's second
query) lose the cross-container pairs. -/
theorem claim1_partitioned_equivalence :
    (∀ (corpus : Corpus) (t : String) (pc jc : List String)
        (pred : List Value → Bool) (proj : List Value → List Value),
      pc ++ jc ≠ [] → "container_id" ∉ pc ++ jc → "rowid" ∉ pc ++ jc →
      (∀ r ∈ getVTable corpus t, r.containerId ∈ corpus.fileIds) →
      corpus.fileIds.Nodup →
      List.Perm ((queryModel corpus [] (Query.select t pc pred jc proj) false).1)
        ((queryModel corpus [] (Query.select t pc pred jc proj) true).1)) ∧
    (∀ (corpus : Corpus) (t1 t2 : String) (pc1 pc2 jc1 jc2 : List String)
        (pred : List Value → List Value → Bool)
        (proj : List Value → List Value → List Value),
      pc1 ++ jc1 ≠ [] → pc2 ++ jc2 ≠ [] →
      "container_id" ∉ pc1 ++ jc1 ++ (pc2 ++ jc2) →
      "rowid" ∉ pc1 ++ jc1 ++ (pc2 ++ jc2) →
      (∀ r ∈ getVTable corpus t1, r.containerId ∈ corpus.fileIds) →
      corpus.fileIds.Nodup →
      (∀ r1 ∈ getVTable corpus t1, ∀ r2 ∈ getVTable corpus t2,
        pred (pc1.map (rowLookup r1)) (pc2.map (rowLookup r2)) = true →
        r1.containerId = r2.containerId) →
      List.Perm
        ((queryModel corpus []
          (Query.join t1 t2 pc1 pc2 pred jc1 jc2 proj) false).1)
        ((queryModel corpus []
          (Query.join t1 t2 pc1 pc2 pred jc1 jc2 proj) true).1)) ∧
    List.Perm ((queryModel fkCorpus [] fkJoinQuery false).1)
      ((queryModel fkCorpus [] fkJoinQuery true).1) := by
  refine ⟨?_, ?_, ?_⟩
  · intro corpus t pc jc pred proj hne _hnoc _hnor hall hnd
    exact partitioned_select_perm corpus t pc jc pred proj hne hall hnd
  · intro corpus t1 t2 pc1 pc2 jc1 jc2 pred proj hne1 hne2 _hnoc _hnor
      hall hnd hloc
    exact partitioned_join_perm corpus t1 t2 pc1 pc2 jc1 jc2 pred proj
      hne1 hne2 hall hnd hloc
  · exact List.isPerm_iff.mp (by decide)

/-- hasColB_foldl_analyze: a session's sequence of analyses never loses a
recorded column. -/
theorem hasColB_foldl_analyze (qs : List Query) (qc : Dict) (t c : String)
    (h : hasColB qc t c = true) :
    hasColB (qs.foldl analyzeInto qc) t c = true := by
  induction qs generalizing qc with
  | nil => simpa
  | cons q qs ih =>
      simp only [List.foldl_cons]
      exact ih _ (hasColB_addCols_of_hasColB _ _ _ _ h)

theorem lookup_some_mem_keys {β : Type} (d : List (String × β)) (t : String)
    (v : β) (h : d.lookup t = some v) : t ∈ d.map (fun p => p.1) := by
  induction d with
  | nil => simp [List.lookup] at h
  | cons p d ih =>
      obtain ⟨k, w⟩ := p
      simp only [List.lookup] at h
      simp only [List.map_cons, List.mem_cons]
      cases hk : (t == k) with
      | true => exact Or.inl (by simpa [beq_iff_eq] using hk)
      | false =>
          rw [hk] at h
          exact Or.inr (ih h)

theorem hasColB_planQueryColumns (pop qc : Dict)
    (r : Option (List (String × String))) (t c : String)
    (h : hasColB qc t c = true) :
    hasColB (planQueryColumns pop qc r) t c = true := by
  cases r with
  | none => exact h
  | some refs =>
      unfold planQueryColumns setJoinColumns
      exact hasColB_addCols_of_hasColB _ _ _ _
        (hasColB_addCols_of_hasColB _ _ _ _ h)

theorem mem_populateSliceCols (qc : Dict) (t c : String)
    (h : hasColB qc t c = true) : c ∈ populateSliceCols qc t := by
  obtain ⟨s, hs, hcs⟩ := hasColB_lookup qc t c h
  unfold populateSliceCols
  rw [hs]
  exact mem_setInsert_of_mem s "rowid" c hcs

theorem mem_tempPairs_of_hasColB (corpus : Corpus) (pop qc : Dict) (i : Nat)
    (t c : String) (h : hasColB qc t c = true) :
    ("temp_" ++ t, sliceOf corpus (populateSliceCols qc t) t i)
      ∈ tempPairs corpus (unionTables pop qc) qc i := by
  obtain ⟨s, hs, _⟩ := hasColB_lookup qc t c h
  have ht : t ∈ dictKeys qc := lookup_some_mem_keys qc t s hs
  have hu : t ∈ unionTables pop qc :=
    List.mem_dedup.mpr (List.mem_append_right _ ht)
  exact List.mem_map.mpr ⟨t, hu, rfl⟩

/-- C10: query_columns grows monotonically over a session: add_column
and set_query_columns only ever add pairs, so after analyzing a sequence
of queries the dictionary holds every column of every analyzed query as
well as everything it held before; the partitioned executor's slice for
a table materializes every column accumulated for that table, and so
does the per-container temp slice populate_database writes for that
table (writeTemps writes exactly the tempPairs entries, by
writeTemps_eq_writePairs, with the populateSliceCols column list). -/
theorem claim10_query_columns_monotone (qc0 : Dict) (qs : List Query)
    (q : Query) (t c : String) :
    (hasColB qc0 t c = true → hasColB (qs.foldl analyzeInto qc0) t c = true) ∧
    (q ∈ qs → (t, c) ∈ queryRefs q →
      hasColB (qs.foldl analyzeInto qc0) t c = true) ∧
    (∀ (corpus : Corpus) (i : Nat),
      hasColB (analyzeInto qc0 q) t c = true →
      ∃ cs, (slicesDict corpus (analyzeInto qc0 q) i).lookup t
          = some (sliceOf corpus cs t i) ∧ c ∈ cs) ∧
    (∀ (pop : Dict) (condRefs : Option (List (String × String)))
        (corpus : Corpus) (i : Nat),
      hasColB (qs.foldl analyzeInto qc0) t c = true →
      c ∈ populateSliceCols
          (planQueryColumns pop (qs.foldl analyzeInto qc0) condRefs) t ∧
      ("temp_" ++ t,
        sliceOf corpus
          (populateSliceCols
            (planQueryColumns pop (qs.foldl analyzeInto qc0) condRefs) t)
          t i)
        ∈ tempPairs corpus
            (unionTables pop
              (planQueryColumns pop (qs.foldl analyzeInto qc0) condRefs))
            (planQueryColumns pop (qs.foldl analyzeInto qc0) condRefs) i) := by
  refine ⟨fun h => hasColB_foldl_analyze qs qc0 t c h, ?_, ?_, ?_⟩
  · intro hq hr
    induction qs generalizing qc0 with
    | nil => simp at hq
    | cons q1 qs ih =>
        simp only [List.foldl_cons]
        rcases List.mem_cons.mp hq with h1 | h2
        · subst h1
          exact hasColB_foldl_analyze qs _ t c (hasColB_addCols_of_mem _ _ _ _ hr)
        · exact ih _ h2
  · intro corpus i h
    obtain ⟨cs, hlk, hcs⟩ := hasColB_lookup _ _ _ h
    exact ⟨cs, lookup_slicesDict corpus _ i t cs hlk, hcs⟩
  · intro pop condRefs corpus i h
    have h2 := hasColB_planQueryColumns pop _ condRefs t c h
    exact ⟨mem_populateSliceCols _ _ _ h2,
      mem_tempPairs_of_hasColB corpus pop _ i t c h2⟩

/-- numberFrom_mem: every listed name receives some row number. -/
theorem numberFrom_mem (l : List String) (k : Nat) (n : String)
    (h : n ∈ l) : ∃ i, (i, n) ∈ numberFrom k l := by
  induction l generalizing k with
  | nil => simp at h
  | cons x l ih =>
      rcases List.mem_cons.mp h with h1 | h2
      · subst h1
        exact ⟨k, List.mem_cons_self _ _⟩
      · obtain ⟨i, hi⟩ := ih h2 (k := k + 1)
        exact ⟨i, List.mem_cons_of_mem _ hi⟩

/-- C7: after normalize_affiliations, every (work_doi, name) pair of the
pre-normalized join of author_affiliations with work_authors is
recoverable by joining affiliations_works with affiliation_names: the
affiliation's name received an id, and that id is paired with the work's
doi. -/
theorem claim7_normalizer_roundtrip (aas : List AffRow) (was : List WARow)
    (aa : AffRow) (wa : WARow) (haa : aa ∈ aas) (hwa : wa ∈ was)
    (hjoin : aa.author_id = wa.id) :
    ∃ fid : Nat, (fid, aa.name) ∈ affiliationNames aas ∧
      (fid, some wa.work_doi) ∈ affiliationsWorks aas was := by
  have hn : aa.name ∈ (aas.map (fun a => a.name)).dedup :=
    List.mem_dedup.mpr (List.mem_map.mpr ⟨aa, haa, rfl⟩)
  obtain ⟨fid, hfid⟩ := numberFrom_mem _ 1 _ hn
  refine ⟨fid, hfid, ?_⟩
  have hpair : (fid, aa.author_id) ∈ authorsAffiliations aas := by
    apply List.mem_flatMap.mpr
    refine ⟨(fid, aa.name), hfid, ?_⟩
    apply List.mem_map.mpr
    refine ⟨aa, List.mem_filter.mpr ⟨haa, by simp⟩, rfl⟩
  unfold affiliationsWorks
  apply List.mem_dedup.mpr
  apply List.mem_flatMap.mpr
  refine ⟨(fid, aa.author_id), hpair, ?_⟩
  have hmswa : wa ∈ was.filter (fun w => w.id == aa.author_id) :=
    List.mem_filter.mpr ⟨hwa, by simp [hjoin]⟩
  have hne : (was.filter (fun w => w.id == aa.author_id)).isEmpty = false := by
    cases hl : was.filter (fun w => w.id == aa.author_id) with
    | nil => rw [hl] at hmswa; simp at hmswa
    | cons x xs => simp [List.isEmpty]
  simp only [hne, Bool.false_eq_true, if_false]
  exact List.mem_map.mpr ⟨wa, hmswa, rfl⟩

/-- C7 witness: the round trip at a one-row fixture. -/
theorem claim7_normalizer_roundtrip_witness :
    ∃ fid : Nat,
      (fid, "MIT") ∈ affiliationNames [{ author_id := 7, name := "MIT" }] ∧
      (fid, some "doi-a") ∈ affiliationsWorks
        [{ author_id := 7, name := "MIT" }] [{ id := 7, work_doi := "doi-a" }] :=
  claim7_normalizer_roundtrip [{ author_id := 7, name := "MIT" }]
    [{ id := 7, work_doi := "doi-a" }] { author_id := 7, name := "MIT" }
    { id := 7, work_doi := "doi-a" } (by decide) (by decide) (by decide)

theorem string_append_left_cancel (s a b : String) (h : s ++ a = s ++ b) :
    a = b := by
  have hd : s.data ++ a.data = s.data ++ b.data := by
    have := congrArg String.data h
    simpa [String.data_append] using this
  have h2 : a.data = b.data := List.append_cancel_left hd
  cases a
  cases b
  simp only at h2
  rw [h2]

theorem dropAll_nil {β : Type} (ks : List String) :
    dropAll ([] : List (String × β)) ks = [] := by
  induction ks with
  | nil => rfl
  | cons k ks ih => simpa [dropAll, dropTable] using ih

theorem dropTable_not_mem {β : Type} (l : List (String × β)) (k : String)
    (h : k ∉ l.map (fun p => p.1)) : dropTable l k = l := by
  induction l with
  | nil => rfl
  | cons p l ih =>
      obtain ⟨k1, v1⟩ := p
      simp only [List.map_cons, List.mem_cons] at h
      push_neg at h
      simp only [dropTable, if_neg (Ne.symm h.1)]
      rw [ih h.2]

theorem dropTable_append_single {β : Type} (x : List (String × β))
    (k k' : String) (v : β) (h : k' ≠ k) :
    dropTable (x ++ [(k, v)]) k' = dropTable x k' ++ [(k, v)] := by
  induction x with
  | nil => simp [dropTable, Ne.symm h]
  | cons p x ih =>
      obtain ⟨k1, v1⟩ := p
      by_cases hk : k1 = k'
      · simp [dropTable, hk]
      · simp only [List.cons_append, dropTable, if_neg hk]
        exact congrArg (List.cons (k1, v1)) ih

theorem dropAll_append_single {β : Type} (ks : List String)
    (x : List (String × β)) (k : String) (v : β) (h : k ∉ ks) :
    dropAll (x ++ [(k, v)]) ks = dropAll x ks ++ [(k, v)] := by
  induction ks generalizing x with
  | nil => rfl
  | cons k1 ks ih =>
      simp only [List.mem_cons] at h
      push_neg at h
      simp only [dropAll, List.foldl_cons]
      rw [dropTable_append_single x k k1 v (Ne.symm h.1)]
      exact ih _ h.2

theorem writePairs_eq {β : Type} (ps : List (String × β))
    (st : List (String × β)) (h : (ps.map (fun p => p.1)).Nodup) :
    writePairs st ps = dropAll st (ps.map (fun p => p.1)) ++ ps := by
  induction ps generalizing st with
  | nil => simp [writePairs, dropAll]
  | cons p ps ih =>
      obtain ⟨k, v⟩ := p
      simp only [List.map_cons, List.nodup_cons] at h
      simp only [writePairs, List.foldl_cons] at ih ⊢
      rw [ih _ h.2]
      simp only [setTable]
      rw [dropAll_append_single _ _ _ _ h.1]
      simp only [List.map_cons, dropAll, List.foldl_cons, List.append_assoc,
        List.singleton_append]

theorem writeTemps_eq_writePairs (corpus : Corpus) (union : List String)
    (qc : Dict) (temps : TempState) (i : Nat) :
    writeTemps corpus union qc temps i
      = writePairs temps (tempPairs corpus union qc i) := by
  unfold writeTemps writePairs tempPairs
  rw [List.foldl_map]

theorem tempPairs_keys (corpus : Corpus) (union : List String) (qc : Dict)
    (i : Nat) :
    (tempPairs corpus union qc i).map (fun p => p.1)
      = union.map (fun t => "temp_" ++ t) := by
  simp [tempPairs]

theorem nodup_tempKeys (union : List String) (h : union.Nodup) :
    (union.map (fun t => "temp_" ++ t)).Nodup := by
  apply List.Nodup.map_on _ h
  intro a _ b _ hab
  exact string_append_left_cancel _ _ _ hab

theorem foldl_congr_mem {α β : Type} (l : List α) (f g : β → α → β) (a : β)
    (h : ∀ x ∈ l, ∀ acc, f acc x = g acc x) : l.foldl f a = l.foldl g a := by
  induction l generalizing a with
  | nil => rfl
  | cons x l ih =>
      simp only [List.foldl_cons]
      rw [h x (List.mem_cons_self x l) a]
      exact ih _ (fun y hy acc => h y (List.mem_cons_of_mem _ hy) acc)

theorem lookup_cons_ne {β : Type} (k k' : String) (v : β)
    (l : List (String × β)) (h : k ≠ k') :
    List.lookup k ((k', v) :: l) = List.lookup k l := by
  simp only [List.lookup]
  have : (k == k') = false := by simpa [beq_iff_eq] using h
  rw [this]

/-- buildCombined_cons_irrelevant: a stale table whose name is neither
temp_works nor any involved temp slice does not change temp_combined. -/
theorem buildCombined_cons_irrelevant (k : String) (v : List SliceRow)
    (ts : TempState) (union : List String) (c : Cond)
    (hk : k ≠ "temp_works")
    (hk2 : ∀ t ∈ union, k ≠ "temp_" ++ t) :
    buildCombined ((k, v) :: ts) union c = buildCombined ts union c := by
  unfold buildCombined
  dsimp only
  rw [lookup_cons_ne _ _ _ _ (Ne.symm hk)]
  congr 1
  congr 1
  apply foldl_congr_mem
  intro x hx envs
  have hxu : x ∈ union := by
    have h1 := (List.mem_filter.mp hx).1
    have h2 := (List.mem_filter.mp h1).2
    simpa using h2
  cases hmx : getTableMetaByName x with
  | none => rfl
  | some m =>
      dsimp only
      cases hpn : m.parentName with
      | none => cases m.primaryKey <;> cases m.foreignKey <;> rfl
      | some p =>
          cases hpk : m.primaryKey with
          | none => cases m.foreignKey <;> rfl
          | some pk =>
              cases hfk : m.foreignKey with
              | none => rfl
              | some fk =>
                  rw [lookup_cons_ne _ _ _ _ (Ne.symm (hk2 x hxu))]

theorem tempCombined_not_key (pop qc : Dict)
    (hc : "combined" ∉ unionTables pop qc) :
    "temp_combined" ∉ (unionTables pop qc).map (fun t => "temp_" ++ t) := by
  intro hmem
  obtain ⟨t, ht, he⟩ := List.mem_map.mp hmem
  have he2 : "temp_" ++ t = "temp_" ++ "combined" := by
    rw [he]
    decide
  have : t = "combined" := string_append_left_cancel _ _ _ he2
  exact hc (this ▸ ht)

/-- containerTemps_nil_shape: processing one container from a clean
session leaves exactly the container's temp slices followed by its
temp_combined. -/
theorem containerTemps_nil_shape (corpus : Corpus) (pop qc : Dict)
    (c : Cond) (i : Nat) (hc : "combined" ∉ unionTables pop qc) :
    containerTemps corpus pop qc c [] i
      = tempPairs corpus (unionTables pop qc) qc i
        ++ [("temp_combined",
            buildCombined (tempPairs corpus (unionTables pop qc) qc i)
              (unionTables pop qc) c)] := by
  unfold containerTemps writeCombined
  rw [writeTemps_eq_writePairs]
  rw [writePairs_eq _ _ (by
    rw [tempPairs_keys]
    exact nodup_tempKeys _ (List.nodup_dedup _))]
  rw [dropAll_nil]
  simp only [List.nil_append]
  unfold setTable
  rw [dropTable_not_mem _ _ (by
    rw [tempPairs_keys]
    exact tempCombined_not_key pop qc hc)]

/-- containerTemps_step: processing a container over the temp state left
by a previous container overwrites it completely, producing the same
state as processing from a clean session. -/
theorem containerTemps_step (corpus : Corpus) (pop qc : Dict) (c : Cond)
    (j i : Nat) (hc : "combined" ∉ unionTables pop qc) :
    containerTemps corpus pop qc c (containerTemps corpus pop qc c [] j) i
      = containerTemps corpus pop qc c [] i := by
  rw [containerTemps_nil_shape corpus pop qc c j hc,
    containerTemps_nil_shape corpus pop qc c i hc]
  unfold containerTemps writeCombined
  rw [writeTemps_eq_writePairs]
  rw [writePairs_eq _ _ (by
    rw [tempPairs_keys]
    exact nodup_tempKeys _ (List.nodup_dedup _))]
  rw [tempPairs_keys]
  rw [show (unionTables pop qc).map (fun t => "temp_" ++ t)
      = (tempPairs corpus (unionTables pop qc) qc j).map (fun p => p.1) from
    (tempPairs_keys corpus (unionTables pop qc) qc j).symm]
  rw [dropAll_append_single _ _ _ _ (by
    rw [tempPairs_keys]
    exact tempCombined_not_key pop qc hc)]
  rw [dropAll_self]
  simp only [List.nil_append, List.singleton_append]
  unfold setTable
  have hdrop : dropTable (("temp_combined",
      buildCombined (tempPairs corpus (unionTables pop qc) qc j)
        (unionTables pop qc) c) :: tempPairs corpus (unionTables pop qc) qc i)
      "temp_combined" = tempPairs corpus (unionTables pop qc) qc i := by
    simp [dropTable]
  rw [hdrop]
  rw [buildCombined_cons_irrelevant _ _ _ _ _ (by decide) (fun t ht he => by
    have he2 : "temp_" ++ t = "temp_" ++ "combined" := by
      rw [← he]
      decide
    exact hc ((string_append_left_cancel _ _ _ he2) ▸ ht))]

theorem populate_temps_foldl (corpus : Corpus) (pop qc : Dict) (c : Cond)
    (ids : List Nat) (p : PDB) (ts : TempState) :
    (ids.foldl (populateContainer corpus pop qc (some c)) (p, ts)).2
      = ids.foldl (fun t i => containerTemps corpus pop qc c t i) ts := by
  induction ids generalizing p ts with
  | nil => rfl
  | cons i ids ih =>
      simp only [List.foldl_cons]
      exact ih _ _

theorem foldl_containerTemps_inv (corpus : Corpus) (pop qc : Dict)
    (c : Cond) (hc : "combined" ∉ unionTables pop qc) (ids : List Nat) :
    ∀ st : TempState,
      (st = [] ∨ ∃ j, st = containerTemps corpus pop qc c [] j) →
      ids.foldl (fun t i => containerTemps corpus pop qc c t i) st = []
        ∨ ∃ j, ids.foldl (fun t i => containerTemps corpus pop qc c t i) st
            = containerTemps corpus pop qc c [] j := by
  induction ids with
  | nil =>
      intro st hst
      exact hst
  | cons i ids ih =>
      intro st hst
      simp only [List.foldl_cons]
      have hstep : containerTemps corpus pop qc c st i
          = containerTemps corpus pop qc c [] i := by
        rcases hst with h | ⟨j, hj⟩
        · rw [h]
        · rw [hj]
          exact containerTemps_step corpus pop qc c j i hc
      exact ih (containerTemps corpus pop qc c st i) (Or.inr ⟨i, hstep⟩)

/-- C6 counterexample: after populate_database returns on the
two-container fixture with a condition, the temp_works slice table still
exists in the session, so temporary tables are not dropped on the exit
path and outlive the processing of their container. -/
theorem claim6_counterexample :
    ((populateDatabase sampleCorpus [("works", "doi")] (some sampleCond)
        [] [] [] [] []).temps.lookup "temp_works").isSome = true := by
  decide

/-- C6 (amended): in query's partitioned mode the created tables are
dropped at the end of every container iteration, so a run that completes
normally leaves none; in populate_database each temporary table is
dropped only when the next container's processing overwrites it, and the
whole temporary state left after the call is exactly the state built for
the final container. -/
theorem claim6_temp_table_lifecycle :
    (∀ (corpus : Corpus) (qc : Dict) (q : Query) (ids : List Nat),
        (partitionLoop corpus qc q ids []).2 = []) ∧
    (∀ (tbls : List (String × List Row)) (ids : List Nat) (l : Nat)
        (parsed : List (String × String)) (c : Cond)
        (idx : List (List String)) (pdb0 : PDB),
        "combined" ∉ unionTables (populatePop parsed [])
            (planQueryColumns (populatePop parsed []) [] (some c.refs)) →
        (populateDatabase ⟨tbls, ids ++ [l]⟩ parsed (some c) idx
            [] [] [] pdb0).temps
          = containerTemps ⟨tbls, ids ++ [l]⟩ (populatePop parsed [])
              (planQueryColumns (populatePop parsed []) [] (some c.refs))
              c [] l) := by
  constructor
  · intro corpus qc q ids
    rw [partitionLoop_clean]
  · intro tbls ids l parsed c idx pdb0 hc
    show (((ids ++ [l]).foldl
        (populateContainer ⟨tbls, ids ++ [l]⟩ (populatePop parsed [])
          (planQueryColumns (populatePop parsed []) [] (some c.refs))
          (some c)) (_, [])).2) = _
    rw [populate_temps_foldl]
    rw [List.foldl_append]
    have hinv := foldl_containerTemps_inv ⟨tbls, ids ++ [l]⟩
      (populatePop parsed [])
      (planQueryColumns (populatePop parsed []) [] (some c.refs)) c hc ids
      [] (Or.inl rfl)
    simp only [List.foldl_cons, List.foldl_nil]
    rcases hinv with h | ⟨j, hj⟩
    · rw [h]
    · rw [hj]
      exact containerTemps_step _ _ _ c j l hc

theorem lookup_append {β : Type} (k : String) (a b : List (String × β)) :
    List.lookup k (a ++ b)
      = match List.lookup k a with
        | some v => some v
        | none => List.lookup k b := by
  induction a with
  | nil => simp [List.lookup]
  | cons p a ih =>
      obtain ⟨k1, v1⟩ := p
      simp only [List.cons_append, List.lookup]
      cases hk : (k == k1) with
      | true => simp
      | false => simpa using ih

theorem lookup_none_of_not_keys {β : Type} (k : String)
    (a : List (String × β)) (h : k ∉ a.map (fun p => p.1)) :
    List.lookup k a = none := by
  induction a with
  | nil => rfl
  | cons p a ih =>
      obtain ⟨k1, v1⟩ := p
      simp only [List.map_cons, List.mem_cons] at h
      push_neg at h
      simp only [List.lookup]
      have : (k == k1) = false := by simpa [beq_iff_eq] using h.1
      rw [this]
      exact ih h.2

theorem lookup_dropTable_ne {β : Type} (st : List (String × β))
    (k k' : String) (h : k' ≠ k) :
    List.lookup k' (dropTable st k) = List.lookup k' st := by
  induction st with
  | nil => rfl
  | cons p st ih =>
      obtain ⟨k1, v1⟩ := p
      by_cases hk : k1 = k
      · subst hk
        have hb : (k' == k1) = false := by simpa [beq_iff_eq] using h
        simp [dropTable, List.lookup, hb]
      · simp only [dropTable, if_neg hk, List.lookup]
        cases hkk : (k' == k1) with
        | true => rfl
        | false => simpa using ih

theorem lookup_dropAll_not_mem {β : Type} (ks : List String)
    (st : List (String × β)) (t : String) (h : t ∉ ks) :
    List.lookup t (dropAll st ks) = List.lookup t st := by
  induction ks generalizing st with
  | nil => rfl
  | cons k ks ih =>
      simp only [List.mem_cons] at h
      push_neg at h
      simp only [dropAll, List.foldl_cons]
      have hstep : List.foldl dropTable (dropTable st k) ks
          = dropAll (dropTable st k) ks := rfl
      rw [hstep, ih _ h.2]
      exact lookup_dropTable_ne st k t h.1

theorem dropTable_sublist {β : Type} (st : List (String × β)) (k : String) :
    List.Sublist (dropTable st k) st := by
  induction st with
  | nil => simp [dropTable]
  | cons p st ih =>
      obtain ⟨k1, v1⟩ := p
      by_cases hk : k1 = k
      · simp only [dropTable, if_pos hk]
        exact List.sublist_cons_self _ _
      · simp only [dropTable, if_neg hk]
        exact List.Sublist.cons₂ _ ih

theorem not_key_dropTable_self {β : Type} (st : List (String × β))
    (k : String) (h : (st.map (fun p => p.1)).Nodup) :
    k ∉ (dropTable st k).map (fun p => p.1) := by
  induction st with
  | nil => simp [dropTable]
  | cons p st ih =>
      obtain ⟨k1, v1⟩ := p
      simp only [List.map_cons, List.nodup_cons] at h
      by_cases hk : k1 = k
      · subst hk
        simp only [dropTable, if_pos rfl]
        exact h.1
      · simp only [dropTable, if_neg hk, List.map_cons, List.mem_cons]
        push_neg
        exact ⟨fun he => hk he.symm, ih h.2⟩

theorem nodup_keys_dropTable {β : Type} (st : List (String × β)) (k : String)
    (h : (st.map (fun p => p.1)).Nodup) :
    ((dropTable st k).map (fun p => p.1)).Nodup :=
  List.Nodup.sublist (List.Sublist.map _ (dropTable_sublist st k)) h

theorem nodup_keys_dropAll {β : Type} (ks : List String)
    (st : List (String × β)) (h : (st.map (fun p => p.1)).Nodup) :
    ((dropAll st ks).map (fun p => p.1)).Nodup := by
  induction ks generalizing st with
  | nil => exact h
  | cons k ks ih =>
      simp only [dropAll, List.foldl_cons]
      exact ih _ (nodup_keys_dropTable st k h)

theorem keys_dropTable_subset {β : Type} (st : List (String × β))
    (k t : String) (h : t ∈ (dropTable st k).map (fun p => p.1)) :
    t ∈ st.map (fun p => p.1) :=
  (List.Sublist.map _ (dropTable_sublist st k)).mem h

theorem not_key_dropAll {β : Type} (ks : List String)
    (st : List (String × β)) (k : String)
    (h : (st.map (fun p => p.1)).Nodup) (hk : k ∈ ks) :
    k ∉ (dropAll st ks).map (fun p => p.1) := by
  induction ks generalizing st with
  | nil => simp at hk
  | cons k1 ks ih =>
      simp only [dropAll, List.foldl_cons]
      rcases List.mem_cons.mp hk with h1 | h2
      · subst h1
        intro hmem
        have hsub : ∀ ks2 (st2 : List (String × β)),
            k ∉ st2.map (fun p => p.1) →
            k ∉ (dropAll st2 ks2).map (fun p => p.1) := by
          intro ks2
          induction ks2 with
          | nil => intro st2 h2 hm; exact h2 hm
          | cons kk ks2 ih2 =>
              intro st2 h2
              simp only [dropAll, List.foldl_cons]
              exact ih2 _ (fun hm => h2 (keys_dropTable_subset st2 kk k hm))
        exact hsub ks _ (not_key_dropTable_self st k h) hmem
      · exact ih _ (nodup_keys_dropTable st k1 h) h2

theorem keys_appendRows (p : PDB) (u : String) (rows : List (List Value)) :
    (appendRows p u rows).map (fun e => e.1) = p.map (fun e => e.1) := by
  induction p with
  | nil => rfl
  | cons e p ih =>
      simp only [appendRows, List.map_cons] at ih ⊢
      by_cases he : e.1 = u
      · simp only [if_pos he]
        rw [ih]
      · simp only [if_neg he]
        rw [ih]

theorem lookup_appendRows (p : PDB) (u t : String)
    (rows : List (List Value)) :
    List.lookup t (appendRows p u rows)
      = if t = u then
          (List.lookup t p).map (fun e => (e.1, e.2 ++ rows))
        else List.lookup t p := by
  induction p with
  | nil => simp [appendRows, List.lookup]
  | cons e p ih =>
      obtain ⟨k1, v1⟩ := e
      simp only [appendRows, List.map_cons] at ih ⊢
      by_cases hk : k1 = u
      · rw [if_pos hk]
        simp only [List.lookup]
        cases hb : (t == k1) with
        | true =>
            have ht : t = k1 := by simpa [beq_iff_eq] using hb
            have htu : t = u := ht.trans hk
            rw [if_pos htu]
            simp
        | false => rw [ih]
      · rw [if_neg hk]
        simp only [List.lookup]
        cases hb : (t == k1) with
        | true =>
            have ht : t = k1 := by simpa [beq_iff_eq] using hb
            have htu : ¬ t = u := fun he => hk (ht ▸ he)
            rw [if_neg htu]
        | false => rw [ih]

theorem lookup_map_entry {β γ : Type} (d : List (String × β))
    (f : String → β → γ) (t : String) (s : β) (h : d.lookup t = some s) :
    (d.map (fun p => (p.1, f p.1 p.2))).lookup t = some (f t s) := by
  induction d with
  | nil => simp [List.lookup] at h
  | cons p d ih =>
      obtain ⟨k, v⟩ := p
      simp only [List.map_cons, List.lookup] at h ⊢
      cases hk : (t == k) with
      | true =>
          rw [hk] at h
          simp only [Option.some.injEq] at h
          subst h
          have : t = k := by simpa [beq_iff_eq] using hk
          subst this
          rfl
      | false =>
          rw [hk] at h
          exact ih h

theorem keys_mem_lookup {β : Type} (d : List (String × β)) (t : String)
    (h : t ∈ d.map (fun p => p.1)) : ∃ v, d.lookup t = some v := by
  induction d with
  | nil => simp at h
  | cons p d ih =>
      obtain ⟨k, v⟩ := p
      simp only [List.map_cons, List.mem_cons] at h
      rcases h with h1 | h2
      · subst h1
        exact ⟨v, by simp [List.lookup]⟩
      · by_cases ht : t = k
        · subst ht
          exact ⟨v, by simp [List.lookup]⟩
        · have hb : (t == k) = false := by simpa [beq_iff_eq] using ht
          obtain ⟨w, hw⟩ := ih h2
          exact ⟨w, by simp [List.lookup, hb, hw]⟩

theorem dictKeys_addColumn (d : Dict) (t c : String) :
    dictKeys (addColumn d t c)
      = if t ∈ dictKeys d then dictKeys d else dictKeys d ++ [t] := by
  induction d with
  | nil => simp [addColumn, dictKeys]
  | cons p d ih =>
      obtain ⟨k, s⟩ := p
      by_cases hk : k = t
      · subst hk
        simp [addColumn, dictKeys]
      · simp only [addColumn, if_neg hk, dictKeys, List.map_cons] at ih ⊢
        rw [ih]
        by_cases hm : t ∈ d.map (fun p => p.1)
        · simp [hm, hk, Ne.symm hk]
        · simp [hm, hk, Ne.symm hk]

theorem nodup_dictKeys_addColumn (d : Dict) (t c : String)
    (h : (dictKeys d).Nodup) : (dictKeys (addColumn d t c)).Nodup := by
  rw [dictKeys_addColumn]
  by_cases hm : t ∈ dictKeys d
  · simpa [hm]
  · simp only [hm, if_false]
    simpa [List.nodup_append] using ⟨h, hm⟩

theorem nodup_dictKeys_addCols (ps : List (String × String)) (d : Dict)
    (h : (dictKeys d).Nodup) : (dictKeys (addCols d ps)).Nodup := by
  induction ps generalizing d with
  | nil => simpa [addCols]
  | cons p ps ih =>
      simp only [addCols, List.foldl_cons]
      exact ih _ (nodup_dictKeys_addColumn d p.1 p.2 h)

theorem createPopTables_eq (pop : Dict) (pdb : PDB) :
    createPopTables pop pdb
      = writePairs pdb (pop.map (fun tc =>
          (tc.1, (restrictSchema tc.1 tc.2, ([] : List (List Value)))))) := by
  unfold createPopTables writePairs
  rw [List.foldl_map]

theorem popM_keys (pop : Dict) :
    (pop.map (fun tc =>
      (tc.1, (restrictSchema tc.1 tc.2, ([] : List (List Value)))))).map
        (fun e => e.1) = dictKeys pop := by
  simp [dictKeys, List.map_map, Function.comp]

theorem lookup_createPopTables_mem (pop : Dict) (pdb : PDB) (t : String)
    (cols : List String) (hnd : (pdb.map (fun e => e.1)).Nodup)
    (hpopnd : (dictKeys pop).Nodup) (hlk : pop.lookup t = some cols) :
    List.lookup t (createPopTables pop pdb)
      = some (restrictSchema t cols, ([] : List (List Value))) := by
  rw [createPopTables_eq]
  rw [writePairs_eq _ _ (by rw [popM_keys]; exact hpopnd)]
  rw [lookup_append]
  have ht : t ∈ dictKeys pop := lookup_some_mem_keys pop t cols hlk
  have hnone : List.lookup t
      (dropAll pdb ((pop.map (fun tc =>
        (tc.1, (restrictSchema tc.1 tc.2, ([] : List (List Value)))))).map
          (fun e => e.1))) = none := by
    apply lookup_none_of_not_keys
    apply not_key_dropAll _ _ _ hnd
    rw [popM_keys]
    exact ht
  rw [hnone]
  exact lookup_map_entry pop
    (fun k s => (restrictSchema k s, ([] : List (List Value)))) t cols hlk

theorem lookup_createPopTables_not_mem (pop : Dict) (pdb : PDB) (t : String)
    (hpopnd : (dictKeys pop).Nodup) (hnm : t ∉ dictKeys pop) :
    List.lookup t (createPopTables pop pdb) = List.lookup t pdb := by
  rw [createPopTables_eq]
  rw [writePairs_eq _ _ (by rw [popM_keys]; exact hpopnd)]
  rw [lookup_append]
  have h1 : List.lookup t
      (dropAll pdb ((pop.map (fun tc =>
        (tc.1, (restrictSchema tc.1 tc.2, ([] : List (List Value)))))).map
          (fun e => e.1))) = List.lookup t pdb := by
    apply lookup_dropAll_not_mem
    rw [popM_keys]
    exact hnm
  rw [h1]
  have h2 : List.lookup t
      (pop.map (fun tc =>
        (tc.1, (restrictSchema tc.1 tc.2, ([] : List (List Value)))))) = none := by
    apply lookup_none_of_not_keys
    rw [popM_keys]
    exact hnm
  cases hl : List.lookup t pdb with
  | none => rw [h2]
  | some v => rfl

theorem fold_appendRows_lookup_eq (ps : Dict)
    (f : String × List String → List (List Value)) (t : String) :
    ∀ (X Y : PDB), List.lookup t X = List.lookup t Y →
    List.lookup t (ps.foldl (fun p tc => appendRows p tc.1 (f tc)) X)
      = List.lookup t (ps.foldl (fun p tc => appendRows p tc.1 (f tc)) Y) := by
  induction ps with
  | nil => intro X Y h; exact h
  | cons tc ps ih =>
      intro X Y h
      simp only [List.foldl_cons]
      apply ih
      rw [lookup_appendRows, lookup_appendRows, h]

theorem fold_appendRows_lookup_not_mem (ps : Dict)
    (f : String × List String → List (List Value)) (t : String)
    (h : ∀ tc ∈ ps, tc.1 ≠ t) :
    ∀ X : PDB,
    List.lookup t (ps.foldl (fun p tc => appendRows p tc.1 (f tc)) X)
      = List.lookup t X := by
  induction ps with
  | nil => intro X; rfl
  | cons tc ps ih =>
      intro X
      simp only [List.foldl_cons]
      rw [ih (fun x hx => h x (List.mem_cons_of_mem _ hx))]
      rw [lookup_appendRows]
      rw [if_neg (fun he => h tc (List.mem_cons_self _ _) he.symm)]

theorem fold_appendRows_shape (ps : Dict)
    (f : String × List String → List (List Value)) (t : String)
    (sch : List String) :
    ∀ X : PDB, (∃ rs, List.lookup t X = some (sch, rs)) →
    ∃ rs, List.lookup t (ps.foldl (fun p tc => appendRows p tc.1 (f tc)) X)
      = some (sch, rs) := by
  induction ps with
  | nil => intro X h; exact h
  | cons tc ps ih =>
      intro X h
      simp only [List.foldl_cons]
      apply ih
      obtain ⟨rs, hrs⟩ := h
      rw [lookup_appendRows]
      by_cases ht : t = tc.1
      · rw [if_pos ht, hrs]
        exact ⟨rs ++ f tc, rfl⟩
      · rw [if_neg ht]
        exact ⟨rs, hrs⟩

theorem loopW_lookup_eq (ord : List String → List String) (corpus : Corpus)
    (pop qc : Dict) (cond : Option Cond) (ids : List Nat) (t : String) :
    ∀ (p1 p2 : PDB) (ts : TempState),
    List.lookup t p1 = List.lookup t p2 →
    List.lookup t
        ((ids.foldl (populateContainerWith ord corpus pop qc cond) (p1, ts)).1)
      = List.lookup t
          ((ids.foldl (populateContainerWith ord corpus pop qc cond)
            (p2, ts)).1) := by
  induction ids with
  | nil => intro p1 p2 ts h; exact h
  | cons i ids ih =>
      intro p1 p2 ts h
      simp only [List.foldl_cons]
      exact ih _ _ _ (fold_appendRows_lookup_eq pop _ t _ _ h)

theorem loopW_lookup_not_mem (ord : List String → List String)
    (corpus : Corpus) (pop qc : Dict) (cond : Option Cond) (ids : List Nat)
    (t : String) (hnm : ∀ tc ∈ pop, tc.1 ≠ t) :
    ∀ (p : PDB) (ts : TempState),
    List.lookup t
        ((ids.foldl (populateContainerWith ord corpus pop qc cond) (p, ts)).1)
      = List.lookup t p := by
  induction ids with
  | nil => intro p ts; rfl
  | cons i ids ih =>
      intro p ts
      simp only [List.foldl_cons]
      rw [ih _ _]
      exact fold_appendRows_lookup_not_mem pop _ t hnm p

theorem loopW_lookup_shape (ord : List String → List String)
    (corpus : Corpus) (pop qc : Dict) (cond : Option Cond) (ids : List Nat)
    (t : String) (sch : List String) :
    ∀ (p : PDB) (ts : TempState),
    (∃ rs, List.lookup t p = some (sch, rs)) →
    ∃ rs, List.lookup t
        ((ids.foldl (populateContainerWith ord corpus pop qc cond) (p, ts)).1)
      = some (sch, rs) := by
  induction ids with
  | nil => intro p ts h; exact h
  | cons i ids ih =>
      intro p ts h
      simp only [List.foldl_cons]
      exact ih _ _ (fold_appendRows_shape pop _ t sch _ h)

theorem keys_fold_appendRows (ps : Dict)
    (f : String × List String → List (List Value)) :
    ∀ X : PDB,
    ((ps.foldl (fun p tc => appendRows p tc.1 (f tc)) X)).map (fun e => e.1)
      = X.map (fun e => e.1) := by
  induction ps with
  | nil => intro X; rfl
  | cons tc ps ih =>
      intro X
      simp only [List.foldl_cons]
      rw [ih _, keys_appendRows]

theorem keysW_loop (ord : List String → List String) (corpus : Corpus)
    (pop qc : Dict) (cond : Option Cond) (ids : List Nat) :
    ∀ (p : PDB) (ts : TempState),
    ((ids.foldl (populateContainerWith ord corpus pop qc cond) (p, ts)).1).map
        (fun e => e.1)
      = p.map (fun e => e.1) := by
  induction ids with
  | nil => intro p ts; rfl
  | cons i ids ih =>
      intro p ts
      simp only [List.foldl_cons]
      rw [ih _ _]
      exact keys_fold_appendRows pop _ p

theorem nodup_keys_createPopTables (pop : Dict) (pdb : PDB)
    (hnd : (pdb.map (fun e => e.1)).Nodup)
    (hpopnd : (dictKeys pop).Nodup) :
    ((createPopTables pop pdb).map (fun e => e.1)).Nodup := by
  rw [createPopTables_eq, writePairs_eq _ _ (by rw [popM_keys]; exact hpopnd)]
  rw [List.map_append, popM_keys]
  rw [List.nodup_append]
  refine ⟨nodup_keys_dropAll _ _ hnd, hpopnd, ?_⟩
  intro a ha hb
  exact not_key_dropAll _ _ _ hnd hb ha

theorem populateDatabaseWith_pdb_unfold (ord : List String → List String)
    (corpus : Corpus) (parsed : List (String × String)) (cond : Option Cond)
    (idx : List (List String)) (pop0 qc0 : Dict) (temps0 : TempState)
    (pdb0 : PDB) :
    (populateDatabaseWith ord corpus parsed cond idx pop0 qc0 temps0 pdb0).pdb
      = (corpus.fileIds.foldl
          (populateContainerWith ord corpus (populatePop parsed pop0)
            (planQueryColumns (populatePop parsed pop0) qc0
              (cond.map (fun c => c.refs)))
            cond)
          (createPopTables (populatePop parsed pop0) pdb0, temps0)).1 := rfl

/-- C3 counterexample: two populate_database runs with identical
arguments on the identical corpus, differing only in the interpreter's
iteration order over the Python set self.population_columns[works]
(insertion order versus its reverse), leave different persistent works
tables: the INSERT's select list follows the set order while the created
schema follows catalog order, so the stored rows are permuted against
the schema.  Under CPython's default hash randomization either order can
occur, so the code does not guarantee byte-equivalent tables. -/
theorem claim3_set_order_counterexample :
    List.lookup "works" (populateDatabaseWith (fun s => s) sampleCorpus
        [("works", "doi"), ("works", "title")] none [] [] [] [] []).pdb
      = some (["doi", "title"],
          [[Value.vStr "a", Value.vStr "Alpha"],
           [Value.vStr "b", Value.vStr "Beta"]]) ∧
    List.lookup "works" (populateDatabaseWith (fun s => s.reverse) sampleCorpus
        [("works", "doi"), ("works", "title")] none [] [] [] [] []).pdb
      = some (["doi", "title"],
          [[Value.vStr "Alpha", Value.vStr "a"],
           [Value.vStr "Beta", Value.vStr "b"]]) := by
  exact ⟨by decide, by decide⟩

/-- C3 (amended): each target table is dropped and recreated with a
schema restricted to the populated columns, and for any fixed
set-iteration order a second populate_database run with identical
arguments on the identical corpus (each run a fresh session) leaves
every table of the persistent database identical to the first run's;
byte-equivalence thus holds whenever both runs iterate the column sets
in the same order, which the interpreter does not guarantee. -/
theorem claim3_populate_idempotence (ord : List String → List String)
    (corpus : Corpus) (parsed : List (String × String)) (cond : Option Cond)
    (idx : List (List String)) (pdb0 : PDB) (t : String)
    (hnd : (pdb0.map (fun e => e.1)).Nodup) :
    List.lookup t (populateDatabaseWith ord corpus parsed cond idx [] [] []
        (populateDatabaseWith ord corpus parsed cond idx [] [] [] pdb0).pdb).pdb
      = List.lookup t
          (populateDatabaseWith ord corpus parsed cond idx [] [] [] pdb0).pdb
    ∧ (t ∈ dictKeys (populatePop parsed []) → ∃ rows,
      List.lookup t
          (populateDatabaseWith ord corpus parsed cond idx [] [] [] pdb0).pdb
        = some (restrictSchema t (((populatePop parsed []).lookup t).getD []),
            rows)) := by
  have hpopnd : (dictKeys (populatePop parsed [])).Nodup := by
    apply nodup_dictKeys_addCols
    simp [dictKeys]
  constructor
  · by_cases hm : t ∈ dictKeys (populatePop parsed [])
    · obtain ⟨cols, hcols⟩ := keys_mem_lookup _ t hm
      have hkeysS1 : (((populateDatabaseWith ord corpus parsed cond idx [] []
          [] pdb0).pdb).map (fun e => e.1)).Nodup := by
        rw [populateDatabaseWith_pdb_unfold, keysW_loop]
        exact nodup_keys_createPopTables _ _ hnd hpopnd
      have h1 := lookup_createPopTables_mem (populatePop parsed [])
        ((populateDatabaseWith ord corpus parsed cond idx [] [] [] pdb0).pdb)
        t cols hkeysS1 hpopnd hcols
      have h2 := lookup_createPopTables_mem (populatePop parsed []) pdb0 t cols
        hnd hpopnd hcols
      rw [populateDatabaseWith_pdb_unfold ord corpus parsed cond idx [] [] []
        ((populateDatabaseWith ord corpus parsed cond idx [] [] [] pdb0).pdb)]
      rw [populateDatabaseWith_pdb_unfold ord corpus parsed cond idx [] [] []
        pdb0]
      exact loopW_lookup_eq ord corpus _ _ cond corpus.fileIds t _ _ []
        (h1.trans h2.symm)
    · have hne : ∀ tc ∈ populatePop parsed [], tc.1 ≠ t := by
        intro tc htc he
        exact hm (he ▸ List.mem_map.mpr ⟨tc, htc, rfl⟩)
      rw [populateDatabaseWith_pdb_unfold ord corpus parsed cond idx [] [] []
        ((populateDatabaseWith ord corpus parsed cond idx [] [] [] pdb0).pdb)]
      rw [loopW_lookup_not_mem ord corpus _ _ cond corpus.fileIds t hne]
      rw [lookup_createPopTables_not_mem _ _ _ hpopnd hm]
  · intro hm
    obtain ⟨cols, hcols⟩ := keys_mem_lookup _ t hm
    have h2 := lookup_createPopTables_mem (populatePop parsed []) pdb0 t cols
      hnd hpopnd hcols
    rw [populateDatabaseWith_pdb_unfold ord corpus parsed cond idx [] [] []
      pdb0]
    obtain ⟨rs, hrs⟩ := loopW_lookup_shape ord corpus (populatePop parsed [])
      (planQueryColumns (populatePop parsed []) []
        (cond.map (fun c => c.refs)))
      cond corpus.fileIds t (restrictSchema t cols)
      (createPopTables (populatePop parsed []) pdb0) [] ⟨[], h2⟩
    refine ⟨rs, ?_⟩
    rw [hcols]
    exact hrs

/-- C3 witness: the amended idempotence and the restricted schema at a
concrete populate run over the fixture, with insertion order. -/
theorem claim3_populate_idempotence_witness :
    List.lookup "works" (populateDatabaseWith (fun s => s) sampleCorpus
        [("works", "doi")] none [] [] [] []
        (populateDatabaseWith (fun s => s) sampleCorpus [("works", "doi")]
          none [] [] [] [] []).pdb).pdb
      = List.lookup "works" (populateDatabaseWith (fun s => s) sampleCorpus
          [("works", "doi")] none [] [] [] [] []).pdb
    ∧ ("works" ∈ dictKeys (populatePop [("works", "doi")] []) → ∃ rows,
      List.lookup "works" (populateDatabaseWith (fun s => s) sampleCorpus
          [("works", "doi")] none [] [] [] [] []).pdb
        = some (restrictSchema "works"
            (((populatePop [("works", "doi")] []).lookup "works").getD []),
            rows)) :=
  claim3_populate_idempotence (fun s => s) sampleCorpus [("works", "doi")]
    none [] [] "works" (by decide)
